import Mathlib

/-!
Shallow embedding of the space-colonization growth engine in
`src/Blender/2.68/scripts/addons/add_mesh_space_tree/scanew.py`.

Python floats are idealized as `ℝ`, `math.sqrt` as `Real.sqrt`, and `**`
on positive floats as `Real.rpow`.  Positions (stored by the source as flat
float arrays or tuples, three components per point) become the record `V3`.
A Python run-time failure (IndexError, ZeroDivisionError, the
UnboundLocalError in `closest` when no growable branch point binds `ci`,
and the non-terminating parent-chain walk) is modelled by `Option`:
`none` means the call does not return normally.  The module-level global
`random` stream is threaded explicitly as `Rng`; the Mersenne-Twister
stream determined by `seed(SEED)` is an input.  The iteration order of the
CPython `set` built in `growBranches`, and the wall-clock readings of
`time()` in `iterate`, are environment inputs and are likewise passed in
explicitly (`order`, `tOra`).
-/

noncomputable section

open Classical

/-- Component triple of reals standing for one 3-D point of the source
(which keeps them as flat float arrays or 3-tuples). -/
structure V3 where
  x : ℝ
  y : ℝ
  z : ℝ

/-- Componentwise difference, as written out in the source. -/
def V3.sub (a b : V3) : V3 := ⟨a.x - b.x, a.y - b.y, a.z - b.z⟩

/-- Componentwise sum, as written out in the source. -/
def V3.add (a b : V3) : V3 := ⟨a.x + b.x, a.y + b.y, a.z + b.z⟩

/-- Dot product; `V3.dot v v` is the squared magnitude the source computes. -/
def V3.dot (a b : V3) : ℝ := a.x * b.x + a.y * b.y + a.z * b.z

/-- Componentwise division by a scalar, as written out in the source. -/
def V3.div (a : V3) (d : ℝ) : V3 := ⟨a.x / d, a.y / d, a.z / d⟩

/-- Python list subscript `l[i]`: nonnegative indices from the front,
negative indices from the back, IndexError (`none`) outside. -/
def pyGet {α : Type} (l : List α) (i : ℤ) : Option α :=
  if 0 ≤ i then l.get? i.toNat
  else if -(l.length : ℤ) ≤ i then l.get? ((l.length : ℤ) + i).toNat
  else none

/-- Python list item assignment `l[i] = a`, with the same index rule. -/
def pySet {α : Type} (l : List α) (i : ℤ) (a : α) : Option (List α) :=
  if 0 ≤ i then
    if i < (l.length : ℤ) then some (l.set i.toNat a) else none
  else if -(l.length : ℤ) ≤ i then some (l.set ((l.length : ℤ) + i).toNat a)
  else none

/-- Stream of uniform draws from the module-level `random` generator, with
a cursor; `seed(SEED)` determines `seq`, which is therefore an input. -/
structure Rng where
  seq : ℕ → ℝ
  pos : ℕ

/-- Value of the next `random()` call. -/
def Rng.head (r : Rng) : ℝ := r.seq r.pos

/-- Stream state after one `random()` call. -/
def Rng.tail (r : Rng) : Rng := ⟨r.seq, r.pos + 1⟩

/-- Loop body chain of the pure-python `closest`: scan the (position,
childCount) pairs with a running index, skipping entries with more than one
child, keeping the least squared distance seen, its index and raw offset.
The accumulator starts at `(1e30, none)`; `none` is `ci` still unbound. -/
def closestAux (q : V3) : List (V3 × ℤ) → ℕ → ℝ → Option (ℕ × V3) → ℝ × Option (ℕ × V3)
  | [], _, d2, best => (d2, best)
  | pc :: rest, i, d2, best =>
    if 1 < pc.2 then closestAux q rest (i + 1) d2 best
    else
      let v := V3.sub q pc.1
      let d := V3.dot v v
      if d < d2 then closestAux q rest (i + 1) d (some (i, v))
      else closestAux q rest (i + 1) d2 best

/-- Pure-python fallback `closest(pos, count, n, x, y, z)` in scanew.py:
returns the least squared distance over branch points with at most one
child, with the index and offset left unbound (`none`) when no such entry
ever beat the initial `1e30`. -/
def closest (bp : List V3) (bpc : List ℤ) (q : V3) : ℝ × Option (ℕ × V3) :=
  closestAux q (bp.zip bpc) 0 1e30 none

/-- Pure-python fallback `direction(v)` in scanew.py: elementwise sum of
the vectors together with the squared magnitude of that sum. -/
def direction (vs : List V3) : V3 × ℝ :=
  let s := vs.foldl V3.add ⟨0, 0, 0⟩
  (s, V3.dot s s)

/-- Body of `SCA.closestBranchPoint` as a function of the fields it reads:
take the `closest` result, `d = sqrt(d2)`, return the index (or `-2` when
`d` is at least the influence radius) with the normalized offset and true
distance.  `none` models the UnboundLocalError when `ci` never bound and
the ZeroDivisionError of `bv[0]/d` when `d == 0`. -/
def cbpCore (bp : List V3) (bpc : List ℤ) (influence : ℝ) (p : V3) : Option (ℤ × V3 × ℝ) :=
  let r := closest bp bpc p
  match r.2 with
  | none => none
  | some civ =>
    let d := Real.sqrt r.1
    if d = 0 then none
    else some (if d < influence then (civ.1 : ℤ) else -2, V3.div civ.2 d, d)

/-- State of one `SCA` instance: the configuration fields and the parallel
growth arrays of `SCA.__init__`, the endpoint-source generator
`volumepoint` (a point stream with a cursor), and the exclusion predicate. -/
structure SCA where
  killdistance : ℝ
  branchlength : ℝ
  maxiterations : ℤ
  tropism : ℝ
  influence : ℝ
  apicalcontrol : ℝ
  apicalcontrolfalloff : ℝ
  apicaltiming : ℤ
  apicalstep : ℝ
  bp : List V3
  bpg : List ℤ
  bpp : List (Option ℤ)
  bpc : List ℤ
  bpa : List ℤ
  ep : List V3
  epb : List ℤ
  epv : List V3
  epd : List ℝ
  volumepoint : ℕ → V3
  volpos : ℕ
  exclude : V3 → Bool

/-- Method `SCA.closestBranchPoint(p)`. -/
def SCA.closestBranchPoint (self : SCA) (p : V3) : Option (ℤ × V3 × ℝ) :=
  cbpCore self.bp self.bpc self.influence p

/-- Parent-chain stamping loop at the top of `SCA.addBranchPoint`:
`ppi = pi; while ppi is not None: bpg[ppi] = generation; ppi = bpp[ppi]`.
It runs before `bpp.append(pi)`, so it reads the old parent list.  `none`
models an IndexError or (via fuel exhaustion) a non-terminating walk. -/
def stampWalk (bpp : List (Option ℤ)) (generation : ℤ) :
    Option ℤ → List ℤ → ℕ → Option (List ℤ)
  | none, bpg, _ => some bpg
  | some _, _, 0 => none
  | some ppi, bpg, fuel + 1 =>
    Option.bind (pySet bpg ppi generation) fun bpg1 =>
    Option.bind (pyGet bpp ppi) fun nxt =>
    stampWalk bpp generation nxt bpg1 fuel

/-- Per-endpoint body of the kill/update loop in `SCA.addBranchPoint`
(the `for epi,(ep,epd,epb) in enumerate(zip(...))` loop): skip dead
endpoints (`epb == -1`); otherwise compute the true distance `d` to the
new point and, when it beats the recorded distance: beyond the kill
distance store the normalized direction and distance and point the
endpoint at the new index (`-2` when not within the influence radius);
within the kill distance mark it dead.  `none` is the ZeroDivisionError of
`v[0]/d` when `d == 0` (reachable only with a negative kill distance). -/
def epUpdate (kill influence : ℝ) (npos : V3) (bi : ℤ)
    (e : V3) (d0 : ℝ) (b0 : ℤ) (v0 : V3) : Option (ℤ × V3 × ℝ) :=
  if b0 ≠ -1 then
    let v := V3.sub e npos
    let d := Real.sqrt (V3.dot v v)
    if d < d0 then
      if kill < d then
        if d = 0 then none
        else some (if d < influence then bi else -2, V3.div v d, d)
      else some (-1, v0, d0)
    else some (b0, v0, d0)
  else some (b0, v0, d0)

/-- Kill/update loop of `SCA.addBranchPoint` over all endpoints, applying
`epUpdate` index by index; each iteration writes only its own slot, so the
in-place mutation is an elementwise map.  Lists of unequal length (never
produced by the engine) fall back to keeping the tails unchanged, as the
truncating `zip` of the source does. -/
def updateEPs (kill influence : ℝ) (npos : V3) (bi : ℤ) :
    List V3 → List ℝ → List ℤ → List V3 → Option (List ℤ × List V3 × List ℝ)
  | e :: es, d0 :: ds, b0 :: bs, v0 :: vs =>
    Option.bind (epUpdate kill influence npos bi e d0 b0 v0) fun r =>
    Option.bind (updateEPs kill influence npos bi es ds bs vs) fun rest =>
    some (r.1 :: rest.1, r.2.1 :: rest.2.1, r.2.2 :: rest.2.2)
  | _, ds, bs, vs => some (bs, vs, ds)

/-- Reassignment loop of `SCA.addBranchPoint`, run when the parent has just
reached two children: every endpoint still pointing at the parent is
re-resolved by `closestBranchPoint` against the post-commit store (passed
in as `bp`/`bpc`); every other endpoint keeps its triple. -/
def reassignEPs (bp : List V3) (bpc : List ℤ) (influence : ℝ) (pi : ℤ) :
    List V3 → List ℤ → List V3 → List ℝ → Option (List ℤ × List V3 × List ℝ)
  | e :: es, b0 :: bs, v0 :: vs, d0 :: ds =>
    Option.bind (if b0 = pi then cbpCore bp bpc influence e else some (b0, v0, d0)) fun r =>
    Option.bind (reassignEPs bp bpc influence pi es bs vs ds) fun rest =>
    some (r.1 :: rest.1, r.2.1 :: rest.2.1, r.2.2 :: rest.2.2)
  | _, bs, vs, ds => some (bs, vs, ds)

/-- Method `SCA.addBranchPoint(bp, pi, generation)`, side effects in source
order: append position and generation, stamp the parent chain, append the
parent index and fresh child/apical counters, increment the parent's child
count, run the endpoint kill/update loop, re-resolve endpoints of a parent
that has just become full, and finally increment the parent's apical
factor. -/
def SCA.addBranchPoint (self : SCA) (pos : V3) (pi : ℤ) (generation : ℤ) : Option SCA :=
  let bp1 := self.bp ++ [pos]
  let bpg1 := self.bpg ++ [generation]
  Option.bind (stampWalk self.bpp generation (some pi) bpg1 (self.bpp.length + 1)) fun bpg2 =>
  let bpp1 := self.bpp ++ [some pi]
  let bpc1 := self.bpc ++ [0]
  let bpa1 := self.bpa ++ [0]
  Option.bind (pyGet bpc1 pi) fun cpi =>
  Option.bind (pySet bpc1 pi (cpi + 1)) fun bpc2 =>
  let bi : ℤ := (bp1.length : ℤ) - 1
  Option.bind
    (updateEPs self.killdistance self.influence pos bi self.ep self.epd self.epb self.epv)
    fun u =>
  Option.bind (pyGet bpc2 pi) fun c2 =>
  Option.bind
    (if 1 < c2 then reassignEPs bp1 bpc2 self.influence pi self.ep u.1 u.2.1 u.2.2
     else some u) fun w =>
  Option.bind (pyGet bpa1 pi) fun a0 =>
  Option.bind (pySet bpa1 pi (a0 + 1)) fun bpa2 =>
  some { self with
          bp := bp1
          bpg := bpg2
          bpp := bpp1
          bpc := bpc2
          bpa := bpa2
          epb := w.1
          epv := w.2.1
          epd := w.2.2 }

/-- Method `SCA.addEndPoint(ep)`: append the position and initialize its
association triple from one `closestBranchPoint` call. -/
def SCA.addEndPoint (self : SCA) (e : V3) : Option SCA :=
  Option.bind (self.closestBranchPoint e) fun r =>
  some { self with
          ep := self.ep ++ [e]
          epb := self.epb ++ [r.1]
          epv := self.epv ++ [r.2.1]
          epd := self.epd ++ [r.2.2] }

/-- Method `SCA.shootSupressed(apicalcontrolfactor)` (source spelling):
never suppress when `apicalcontrol <= 0`; with
`p = 1 - apicalcontrolfactor * apicalcontrol`, always suppress when
`p <= 0`; otherwise suppress exactly when the next uniform draw exceeds
`p ** apicalcontrolfalloff`.  Only the last branch consumes a draw. -/
def SCA.shootSupressed (self : SCA) (apicalcontrolfactor : ℤ) (rng : Rng) : Bool × Rng :=
  if self.apicalcontrol ≤ 0 then (false, rng)
  else
    let p : ℝ := 1 - (apicalcontrolfactor : ℝ) * self.apicalcontrol
    if p ≤ 0 then (true, rng)
    else (if p ^ self.apicalcontrolfalloff < Rng.head rng then true else false, Rng.tail rng)

/-- Candidate position grown from branch point `bpi`, computed from the
fields of `self` alone: sum the stored directions of the endpoints
associated with `bpi`, rescale the sum to the configured step length, add
the vertical tropism bias.  `none` is the ZeroDivisionError when the step
length is zero or the directions cancel, or an IndexError on `bp`. -/
def SCA.growCandidate (self : SCA) (bpi : ℤ) : Option V3 :=
  let epvs := (self.epb.zip self.epv).filterMap fun bv =>
    if bv.1 = bpi then some bv.2 else none
  let vd2 := direction epvs
  let d := Real.sqrt vd2.2 / self.branchlength
  if d = 0 then none
  else
    Option.bind (pyGet self.bp bpi) fun bpos =>
    some ⟨bpos.x + vd2.1.x / d, bpos.y + vd2.1.y / d, bpos.z + vd2.1.z / d + self.tropism⟩

/-- First loop of `SCA.growBranches`: walk the set-iteration sequence of
parent indices, consult `shootSupressed` (reading `bpa[bpi]`), and collect
the surviving `(newPosition, parentIndex)` candidates.  Only `self`'s
fields are read; nothing is committed here. -/
def SCA.growPhase (self : SCA) : List ℤ → Rng → Option (List (V3 × ℤ) × Rng)
  | [], rng => some ([], rng)
  | bpi :: rest, rng =>
    Option.bind (pyGet self.bpa bpi) fun af =>
    let sr := self.shootSupressed af rng
    if sr.1 then self.growPhase rest sr.2
    else
      Option.bind (self.growCandidate bpi) fun c =>
      Option.bind (self.growPhase rest sr.2) fun cr =>
      some ((c, bpi) :: cr.1, cr.2)

/-- Second loop of `SCA.growBranches`: commit each candidate not rejected
by the exclusion predicate via `addBranchPoint`, sequentially in candidate
order. -/
def SCA.commitPhase (generation : ℤ) : SCA → List (V3 × ℤ) → Option SCA
  | s, [] => some s
  | s, c :: cs =>
    if s.exclude c.1 then SCA.commitPhase generation s cs
    else
      Option.bind (s.addBranchPoint c.1 c.2 generation) fun s1 =>
      SCA.commitPhase generation s1 cs

/-- Characterization of the sequence a CPython `set(epb)` with `-1` and
`-2` discarded can iterate in: duplicate-free, and holding exactly the
non-sentinel values of `epb`.  The concrete order is implementation
defined; the source does not sort it. -/
def IsSetOrder (epb : List ℤ) (order : List ℤ) : Prop :=
  order.Nodup ∧ (∀ x ∈ order, x ∈ epb ∧ x ≠ -1 ∧ x ≠ -2) ∧
    ∀ x ∈ epb, x ≠ -1 → x ≠ -2 → x ∈ order

/-- Method `SCA.growBranches(generation)`: iterate over the set of branch
point indices some endpoint currently points at (the iteration sequence
`order` is supplied by the environment and checked to be a faithful
enumeration of that set), computing all candidates first, then committing
the non-excluded ones in that same sequence. -/
def SCA.growBranches (self : SCA) (rng : Rng) (generation : ℤ) (order : List ℤ) :
    Option (SCA × Rng) :=
  if IsSetOrder self.epb order then
    Option.bind (self.growPhase order rng) fun cr =>
    Option.bind (SCA.commitPhase generation self cr.1) fun s1 =>
    some (s1, cr.2)
  else none

/-- Apical-control decay step at the bottom of each `SCA.iterate`
generation: while `apicaltiming > 0`, count it down and subtract
`apicalstep` from `apicalcontrol`, clamping at zero. -/
def SCA.apicalDecay (self : SCA) : SCA :=
  if 0 < self.apicaltiming then
    let ac := self.apicalcontrol - self.apicalstep
    { self with
        apicaltiming := self.apicaltiming - 1
        apicalcontrol := if ac < 0 then 0 else ac }
  else self

/-- CPython library function `random.expovariate(lambd)` applied to one
uniform draw `u`: `-log(1.0 - u) / lambd`. -/
def expovariate (lambd u : ℝ) : ℝ := -Real.log (1 - u) / lambd

/-- Poisson-injection loop of one `SCA.iterate` generation:
`while t < niterations: addEndPoint(next(volumepoint)); t += expovariate(rate)`.
The source loop is unbounded (draws of zero stall it), so it carries fuel;
`none` is a run that does not return normally. -/
def SCA.injectLoop (rate : ℝ) : ℕ → SCA → Rng → ℝ → ℝ → Option (SCA × Rng × ℝ)
  | fuel, s, rng, t, niterations =>
    if t < niterations then
      match fuel with
      | 0 => none
      | fuel1 + 1 =>
        let pt := s.volumepoint s.volpos
        Option.bind (SCA.addEndPoint { s with volpos := s.volpos + 1 } pt) fun s1 =>
        SCA.injectLoop rate fuel1 s1 (Rng.tail rng)
          (t + expovariate rate (Rng.head rng)) niterations
    else some (s, rng, t)

/-- Generation loop of `SCA.iterate`: per generation run `growBranches`,
then stop if a positive wall-clock budget is exceeded (the reading
`time() - starttime` at generation `i` is the environment input `tOra i`,
consulted only when `maxtime > 0`, matching the short-circuit `and`), then
inject endpoints when the rate is positive, then decay apical control.
`ordOra i` is the set-iteration sequence of generation `i`. -/
def SCA.iterLoop (rate maxtime : ℝ) (tOra : ℕ → ℝ) (ordOra : ℕ → List ℤ) (fuel : ℕ) :
    ℕ → ℕ → SCA → Rng → ℝ → ℝ → Option (SCA × Rng)
  | _, 0, s, rng, _, _ => some (s, rng)
  | i, remaining + 1, s, rng, t, niterations =>
    Option.bind (s.growBranches rng (i : ℤ) (ordOra i)) fun sr =>
    if 0 < maxtime ∧ maxtime < tOra i then some (sr.1, sr.2)
    else if 0 < rate then
      let nit1 := niterations + 1
      Option.bind (SCA.injectLoop rate fuel sr.1 sr.2 t nit1) fun srt =>
      SCA.iterLoop rate maxtime tOra ordOra fuel (i + 1) remaining
        (SCA.apicalDecay srt.1) srt.2.1 srt.2.2 nit1
    else
      SCA.iterLoop rate maxtime tOra ordOra fuel (i + 1) remaining
        (SCA.apicalDecay sr.1) sr.2 t niterations

/-- Record materialized for one branch point by `SCA.iterate` (the
`Branchpoint` class): the process-global creation index, position, stored
parent index, generation, apex/shoot children (as positions in the
materialized list; the source stores object references), and the
`connections` counter that finishes as 1 + number of descendants. -/
structure BPRec where
  index : ℤ
  pos : V3
  parent : Option ℤ
  generation : ℤ
  apex : Option ℕ
  shoot : Option ℕ
  connections : ℤ

/-- First materialization loop of `SCA.iterate`: in creation order build a
`Branchpoint` per store entry (its `index` is the incremented process-wide
`Branchpoint.count`, threaded as `cnt`), and register each non-root as its
parent's apex if the parent has none yet, else as the parent's shoot. -/
def matLoop : List (V3 × Option ℤ × ℤ) → ℕ → ℤ → List BPRec → Option (List BPRec × ℤ)
  | [], _, cnt, recs => some (recs, cnt)
  | (p, pp, g) :: rest, bi, cnt, recs =>
    let r : BPRec := ⟨cnt + 1, p, pp, g, none, none, 1⟩
    let recs1 := recs ++ [r]
    match pp with
    | none => matLoop rest (bi + 1) (cnt + 1) recs1
    | some ppi =>
      Option.bind (pyGet recs1 ppi) fun pr =>
      Option.bind (pySet recs1 ppi (if pr.apex = none then { pr with apex := some bi }
                                    else { pr with shoot := some bi })) fun recs2 =>
      matLoop rest (bi + 1) (cnt + 1) recs2

/-- Ancestor walk of the second materialization loop: follow parent links
from `start`, incrementing `connections` on every ancestor visited; fuel
guards the cycle that a malformed parent entry would loop on. -/
def connWalk : List BPRec → Option ℤ → ℕ → Option (List BPRec)
  | recs, none, _ => some recs
  | _, some _, 0 => none
  | recs, some pidx, fuel + 1 =>
    Option.bind (pyGet recs pidx) fun pr =>
    Option.bind (pySet recs pidx { pr with connections := pr.connections + 1 }) fun recs1 =>
    connWalk recs1 pr.parent fuel

/-- Second materialization loop of `SCA.iterate`: for every node in order,
walk its ancestor chain incrementing each ancestor's `connections`. -/
def connPhaseAux : ℕ → List BPRec → ℕ → Option (List BPRec)
  | 0, recs, _ => some recs
  | n + 1, recs, idx =>
    Option.bind (pyGet recs (idx : ℤ)) fun r =>
    Option.bind (connWalk recs r.parent (recs.length + 1)) fun recs1 =>
    connPhaseAux n recs1 (idx + 1)

/-- Both materialization passes over a list of records. -/
def connPhase (recs : List BPRec) : Option (List BPRec) :=
  connPhaseAux recs.length recs 0

/-- Result materialization at the bottom of `SCA.iterate`: convert the
flat arrays into `Branchpoint` records (threading the process-global
counter `cnt`) and copy out the endpoint positions. -/
def SCA.materialize (self : SCA) (cnt : ℤ) : Option (List BPRec × List V3 × ℤ) :=
  Option.bind (matLoop (self.bp.zip (self.bpp.zip self.bpg)) 0 cnt []) fun rc =>
  Option.bind (connPhase rc.1) fun recs1 =>
  some (recs1, self.ep, rc.2)

/-- Method `SCA.iterate(newendpointsper1000, maxtime)`: divide the rate by
1000, seed the first exponential interarrival draw when the rate is
positive, run up to `maxiterations` generations, then materialize the
result arrays.  Returns the final store, random stream, branch-point
records, endpoint positions, and the advanced `Branchpoint.count`. -/
def SCA.iterate (self : SCA) (rng : Rng) (cnt : ℤ) (newendpointsper1000 maxtime : ℝ)
    (tOra : ℕ → ℝ) (ordOra : ℕ → List ℤ) (fuel : ℕ) :
    Option (SCA × Rng × List BPRec × List V3 × ℤ) :=
  let rate := newendpointsper1000 / 1000
  let t0 : ℝ × Rng :=
    if 0 < rate then (expovariate rate (Rng.head rng), Rng.tail rng) else (1, rng)
  Option.bind
    (SCA.iterLoop rate maxtime tOra ordOra fuel 0 self.maxiterations.toNat self t0.2 t0.1 0)
    fun sr =>
  Option.bind (sr.1.materialize cnt) fun rec1 =>
  some (sr.1, sr.2, rec1.1, rec1.2.1, rec1.2.2)

/-- Endpoint seeding loop of `SCA.__init__`:
`for i in range(NENDPOINTS): addEndPoint(next(volumepoint))`. -/
def seedLoop : ℕ → SCA → Option SCA
  | 0, s => some s
  | n + 1, s =>
    let pt := s.volumepoint s.volpos
    Option.bind (SCA.addEndPoint { s with volpos := s.volpos + 1 } pt) fun s1 =>
    seedLoop n s1

/-- Preset starting-point loop of `SCA.__init__`:
`for bp in startingpoints: addBranchPoint(bp.v, -1, 0)` after resetting
`bp`, `bpp` and `bpc` (and only those three arrays). -/
def presetLoop : List V3 → SCA → Option SCA
  | [], s => some s
  | p :: ps, s =>
    Option.bind (s.addBranchPoint p (-1) 0) fun s1 =>
    presetLoop ps s1

/-- Constructor `SCA.__init__`: store the configuration (a non-positive
influence radius becomes `1e16`; the apical decay step is
`apicalcontrol / apicaltiming` when a decay duration is set), seed the
stores with the origin root and `NENDPOINTS` sampled endpoints, then, when
preset starting points are supplied, reset `bp`, `bpp`, `bpc` and commit
each preset with parent argument `-1`.  No parameter is validated. -/
def initSCA (NENDPOINTS : ℤ) (d : ℝ) (NBP : ℤ) (KILLDIST INFLUENCE : ℝ)
    (volumepoint : ℕ → V3) (TROPISM : ℝ) (exclude : V3 → Bool) (startingpoints : List V3)
    (apicalcontrol apicalcontrolfalloff : ℝ) (apicaltiming : ℤ) : Option SCA :=
  let s0 : SCA :=
    { killdistance := KILLDIST
      branchlength := d
      maxiterations := NBP
      tropism := TROPISM
      influence := if 0 < INFLUENCE then INFLUENCE else 1e16
      apicalcontrol := apicalcontrol
      apicalcontrolfalloff := apicalcontrolfalloff
      apicaltiming := apicaltiming
      apicalstep := if 0 < apicaltiming then apicalcontrol / (apicaltiming : ℝ) else 0
      bp := [⟨0, 0, 0⟩]
      bpg := [0]
      bpp := [none]
      bpc := [0]
      bpa := [0]
      ep := []
      epb := []
      epv := []
      epd := []
      volumepoint := volumepoint
      volpos := 0
      exclude := exclude }
  Option.bind (seedLoop NENDPOINTS.toNat s0) fun s1 =>
  if startingpoints.isEmpty then some s1
  else presetLoop startingpoints { s1 with bp := [], bpp := [], bpc := [] }

/-- Baseline concrete store used by witnesses: the post-construction state
of an engine with no endpoints, step length 1, kill distance 0 and
influence radius 5. -/
def baseS : SCA :=
  { killdistance := 0
    branchlength := 1
    maxiterations := 0
    tropism := 0
    influence := 5
    apicalcontrol := 0
    apicalcontrolfalloff := 1
    apicaltiming := 0
    apicalstep := 0
    bp := [⟨0, 0, 0⟩]
    bpg := [0]
    bpp := [none]
    bpc := [0]
    bpa := [0]
    ep := []
    epb := []
    epv := []
    epd := []
    volumepoint := fun _ => ⟨0, 0, 0⟩
    volpos := 0
    exclude := fun _ => false }

/-- One engine operation on the store: a `growBranches` generation (with
an arbitrary random stream and any faithful set-iteration sequence), an
`addEndPoint`, the apical decay step of the iteration loop, or a whole
`iterate` run. -/
inductive Step : SCA → SCA → Prop
  | grow (s s' : SCA) (rng rng' : Rng) (generation : ℤ) (order : List ℤ)
      (h : s.growBranches rng generation order = some (s', rng')) : Step s s'
  | addEP (s s' : SCA) (e : V3) (h : s.addEndPoint e = some s') : Step s s'
  | decay (s : SCA) : Step s s.apicalDecay
  | iter (s s' : SCA) (rng rng' : Rng) (cnt cnt' : ℤ) (rate maxtime : ℝ)
      (tOra : ℕ → ℝ) (ordOra : ℕ → List ℤ) (fuel : ℕ)
      (recs : List BPRec) (eps : List V3)
      (h : s.iterate rng cnt rate maxtime tOra ordOra fuel = some (s', rng', recs, eps, cnt')) :
      Step s s'

/-- Any finite sequence of engine operations. -/
inductive Steps : SCA → SCA → Prop
  | refl (s : SCA) : Steps s s
  | tail (s s1 s2 : SCA) (h1 : Steps s s1) (h2 : Step s1 s2) : Steps s s2

/-- Store with one dead endpoint, used by the C6 witness. -/
def sDead : SCA :=
  { baseS with ep := [⟨2, 0, 0⟩], epb := [-1], epv := [⟨1, 0, 0⟩], epd := [2] }

/-- The store after appending one endpoint at distance 1 to `sDead`. -/
def sDead2 : SCA :=
  { baseS with
      ep := [⟨2, 0, 0⟩, ⟨1, 0, 0⟩]
      epb := [-1, 0]
      epv := [⟨1, 0, 0⟩, V3.div ⟨1, 0, 0⟩ 1]
      epd := [2, 1] }

/-- Invariant carried by every reachable store: the five branch-point
arrays and the four endpoint arrays are parallel, no child count exceeds
2, and every endpoint association is a sentinel or the index of a branch
point with at most one child. -/
def StoreInv (s : SCA) : Prop :=
  s.bpc.length = s.bp.length ∧
  s.bpp.length = s.bp.length ∧
  s.bpg.length = s.bp.length ∧
  s.bpa.length = s.bp.length ∧
  s.epb.length = s.ep.length ∧
  s.epv.length = s.ep.length ∧
  s.epd.length = s.ep.length ∧
  (∀ c ∈ s.bpc, c ≤ 2) ∧
  (∀ (k : ℕ) (b : ℤ), s.epb.get? k = some b → b = -1 ∨ b = -2 ∨
    ∃ (j : ℕ) (c : ℤ), b = (j : ℤ) ∧ s.bpc.get? j = some c ∧ c ≤ 1)

/-- Stores reachable by a run of the engine: a construction with no preset
starting points, followed by any sequence of `growBranches` generations,
endpoint additions, apical decay steps, and `iterate` runs. -/
inductive Reach : SCA → Prop
  | init (NENDPOINTS : ℤ) (d : ℝ) (NBP : ℤ) (KILLDIST INFLUENCE : ℝ)
      (volumepoint : ℕ → V3) (TROPISM : ℝ) (exclude : V3 → Bool)
      (apicalcontrol apicalcontrolfalloff : ℝ) (apicaltiming : ℤ) (s : SCA)
      (h : initSCA NENDPOINTS d NBP KILLDIST INFLUENCE volumepoint TROPISM exclude []
        apicalcontrol apicalcontrolfalloff apicaltiming = some s) : Reach s
  | step (s s' : SCA) (h1 : Reach s) (h2 : Step s s') : Reach s'

/-- Fixed random stream used by concrete run evaluations. -/
def rng0 : Rng := ⟨fun _ => 0, 0⟩

/-- First branch-point record materialized by a fresh process: global
count starts at 0, so the root's index is 1. -/
def bprec1 : BPRec := ⟨1, ⟨0, 0, 0⟩, none, 0, none, none, 1⟩

/-- The same root record materialized by a second run in the same process:
the global count is already 1, so the index is 2. -/
def bprec2 : BPRec := ⟨2, ⟨0, 0, 0⟩, none, 0, none, none, 1⟩

/-- Store with nine branch points in which endpoint 0 is associated with
branch point 8 and endpoint 1 with branch point 0.  The CPython set
`set([8, 0])` iterates as `[8, 0]` — 8 hashes to slot 0 of the 8-slot
table and 0 probes to slot 1 — so `growBranches` on this store really
visits parent 8 before parent 0.  Recorded distances of `-1` keep the
kill/update loop from touching anything. -/
def sC2 : SCA :=
  { baseS with
      bp := [⟨0, 0, 0⟩, ⟨0, 0, 0⟩, ⟨0, 0, 0⟩, ⟨0, 0, 0⟩, ⟨0, 0, 0⟩, ⟨0, 0, 0⟩,
        ⟨0, 0, 0⟩, ⟨0, 0, 0⟩, ⟨0, 0, 0⟩]
      bpg := [0, 0, 0, 0, 0, 0, 0, 0, 0]
      bpp := [none, none, none, none, none, none, none, none, none]
      bpc := [0, 0, 0, 0, 0, 0, 0, 0, 0]
      bpa := [0, 0, 0, 0, 0, 0, 0, 0, 0]
      ep := [⟨9, 9, 9⟩, ⟨9, 9, 9⟩]
      epb := [8, 0]
      epv := [⟨1, 0, 0⟩, ⟨1, 0, 0⟩]
      epd := [-1, -1] }

/-- The store `sC2` after committing the candidate of parent 8. -/
def sC2mid : SCA :=
  { baseS with
      bp := [⟨0, 0, 0⟩, ⟨0, 0, 0⟩, ⟨0, 0, 0⟩, ⟨0, 0, 0⟩, ⟨0, 0, 0⟩, ⟨0, 0, 0⟩,
        ⟨0, 0, 0⟩, ⟨0, 0, 0⟩, ⟨0, 0, 0⟩, ⟨1, 0, 0⟩]
      bpg := [0, 0, 0, 0, 0, 0, 0, 0, 0, 0]
      bpp := [none, none, none, none, none, none, none, none, none, some 8]
      bpc := [0, 0, 0, 0, 0, 0, 0, 0, 1, 0]
      bpa := [0, 0, 0, 0, 0, 0, 0, 0, 1, 0]
      ep := [⟨9, 9, 9⟩, ⟨9, 9, 9⟩]
      epb := [8, 0]
      epv := [⟨1, 0, 0⟩, ⟨1, 0, 0⟩]
      epd := [-1, -1] }

/-- The store `sC2` after both commits of the generation, parent 8 first,
then parent 0: its parent array ends `[.., some 8, some 0]`. -/
def sC2' : SCA :=
  { baseS with
      bp := [⟨0, 0, 0⟩, ⟨0, 0, 0⟩, ⟨0, 0, 0⟩, ⟨0, 0, 0⟩, ⟨0, 0, 0⟩, ⟨0, 0, 0⟩,
        ⟨0, 0, 0⟩, ⟨0, 0, 0⟩, ⟨0, 0, 0⟩, ⟨1, 0, 0⟩, ⟨1, 0, 0⟩]
      bpg := [0, 0, 0, 0, 0, 0, 0, 0, 0, 0, 0]
      bpp := [none, none, none, none, none, none, none, none, none, some 8, some 0]
      bpc := [1, 0, 0, 0, 0, 0, 0, 0, 1, 0, 0]
      bpa := [1, 0, 0, 0, 0, 0, 0, 0, 1, 0, 0]
      ep := [⟨9, 9, 9⟩, ⟨9, 9, 9⟩]
      epb := [8, 0]
      epv := [⟨1, 0, 0⟩, ⟨1, 0, 0⟩]
      epd := [-1, -1] }

/-- C3: in every `addBranchPoint` commit, the per-endpoint update applied
to each endpoint (`epUpdate`, mapped over all endpoints by `updateEPs`)
behaves as claimed: a DEAD endpoint (association `-1`) is untouched; an
endpoint whose distance `d` to the new point is not smaller than its
recorded distance is unchanged; when `d` is smaller, it dies if
`d ≤ killdistance`, and otherwise its direction and distance are updated
to point at the new branch point, with association the new index `bi` when
`d < influence` and the out-of-range sentinel `-2` when `d ≥ influence`
(the distance still recorded).  Kill distance is nonnegative, as every
meaningful configuration has it (a negative one can make the source divide
by zero here). -/
theorem c3_kill_update_cases (kill influence : ℝ) (npos : V3) (bi : ℤ)
    (e : V3) (d0 : ℝ) (b0 : ℤ) (v0 : V3) (d : ℝ) (hk : 0 ≤ kill)
    (hd : d = Real.sqrt (V3.dot (V3.sub e npos) (V3.sub e npos))) :
    (b0 = -1 → epUpdate kill influence npos bi e d0 b0 v0 = some (b0, v0, d0)) ∧
    (b0 ≠ -1 → ¬ d < d0 → epUpdate kill influence npos bi e d0 b0 v0 = some (b0, v0, d0)) ∧
    (b0 ≠ -1 → d < d0 → d ≤ kill →
      epUpdate kill influence npos bi e d0 b0 v0 = some (-1, v0, d0)) ∧
    (b0 ≠ -1 → d < d0 → kill < d → d < influence →
      epUpdate kill influence npos bi e d0 b0 v0 = some (bi, V3.div (V3.sub e npos) d, d)) ∧
    (b0 ≠ -1 → d < d0 → kill < d → ¬ d < influence →
      epUpdate kill influence npos bi e d0 b0 v0 = some (-2, V3.div (V3.sub e npos) d, d)) := by
  subst hd
  refine ⟨?_, ?_, ?_, ?_, ?_⟩
  · intro h1
    simp [epUpdate, h1]
  · intro h1 h2
    simp [epUpdate, h1, h2]
  · intro h1 h2 h3
    simp [epUpdate, h1, h2, not_lt.mpr h3]
  · intro h1 h2 h3 h4
    have hdz : Real.sqrt (V3.dot (V3.sub e npos) (V3.sub e npos)) ≠ 0 :=
      ne_of_gt (lt_of_le_of_lt hk h3)
    simp [epUpdate, h1, h2, h3, h4, hdz]
  · intro h1 h2 h3 h4
    have hdz : Real.sqrt (V3.dot (V3.sub e npos) (V3.sub e npos)) ≠ 0 :=
      ne_of_gt (lt_of_le_of_lt hk h3)
    simp [epUpdate, h1, h2, h3, h4, hdz]

/-- Witness for C3: new point at the origin, endpoint at distance 1 with
recorded distance 2, kill distance 0, influence 5: the endpoint is
re-pointed at the new index 1 with unit direction and distance 1. -/
theorem c3_kill_update_cases_witness :
    epUpdate 0 5 ⟨0, 0, 0⟩ 1 ⟨1, 0, 0⟩ 2 0 ⟨0, 0, 0⟩ =
      some (1, V3.div (V3.sub ⟨1, 0, 0⟩ ⟨0, 0, 0⟩) 1, 1) := by
  have hd : (1 : ℝ) = Real.sqrt (V3.dot (V3.sub ⟨1, 0, 0⟩ ⟨0, 0, 0⟩) (V3.sub ⟨1, 0, 0⟩ ⟨0, 0, 0⟩)) := by
    have : V3.dot (V3.sub ⟨1, 0, 0⟩ ⟨0, 0, 0⟩) (V3.sub ⟨1, 0, 0⟩ ⟨0, 0, 0⟩) = 1 := by
      simp [V3.sub, V3.dot]
    rw [this, Real.sqrt_one]
  have h := c3_kill_update_cases 0 5 ⟨0, 0, 0⟩ 1 ⟨1, 0, 0⟩ 2 0 ⟨0, 0, 0⟩ 1 le_rfl hd
  exact h.2.2.2.1 (by decide) (by norm_num) (by norm_num) (by norm_num)

/-- C8: `shootSupressed` never suppresses when `apicalcontrol ≤ 0`;
otherwise with `p = 1 - apicalFactor * apicalcontrol` it always suppresses
when `p ≤ 0`, and when `p > 0` it suppresses exactly when the next uniform
draw exceeds `p ** apicalcontrolfalloff` (consuming that one draw). -/
theorem c8_shoot_supressed_cases (s : SCA) (af : ℤ) (rng : Rng) :
    (s.apicalcontrol ≤ 0 → s.shootSupressed af rng = (false, rng)) ∧
    (0 < s.apicalcontrol → 1 - (af : ℝ) * s.apicalcontrol ≤ 0 →
      s.shootSupressed af rng = (true, rng)) ∧
    (0 < s.apicalcontrol → 0 < 1 - (af : ℝ) * s.apicalcontrol →
      ((s.shootSupressed af rng).1 = true ↔
        (1 - (af : ℝ) * s.apicalcontrol) ^ s.apicalcontrolfalloff < Rng.head rng) ∧
      (s.shootSupressed af rng).2 = Rng.tail rng) := by
  refine ⟨?_, ?_, ?_⟩
  · intro h1
    simp [SCA.shootSupressed, h1]
  · intro h1 h2
    simp [SCA.shootSupressed, not_le.mpr h1, h2]
  · intro h1 h2
    constructor
    · by_cases hlt : (1 - (af : ℝ) * s.apicalcontrol) ^ s.apicalcontrolfalloff < Rng.head rng
      · simp [SCA.shootSupressed, not_le.mpr h1, not_le.mpr h2, hlt]
      · simp [SCA.shootSupressed, not_le.mpr h1, not_le.mpr h2, hlt]
    · simp [SCA.shootSupressed, not_le.mpr h1, not_le.mpr h2]

/-- Witness for C8: apical control 1/2 with falloff exponent 1 and one
prior shoot gives `p = 1/2`; a draw of 9/10 exceeds it, so the shoot is
suppressed and the draw is consumed. -/
theorem c8_shoot_supressed_witness :
    (SCA.shootSupressed { baseS with apicalcontrol := 1/2 } 1 ⟨fun _ => 9/10, 0⟩).1 = true ∧
    (SCA.shootSupressed { baseS with apicalcontrol := 1/2 } 1 ⟨fun _ => 9/10, 0⟩).2 =
      Rng.tail ⟨fun _ => 9/10, 0⟩ := by
  have h := c8_shoot_supressed_cases { baseS with apicalcontrol := 1/2 } 1 ⟨fun _ => 9/10, 0⟩
  have h3 := h.2.2 (by norm_num [baseS]) (by norm_num [baseS])
  constructor
  · rw [h3.1]
    have : ((1 : ℝ) - (1 : ℤ) * (1/2 : ℝ)) = (1/2 : ℝ) := by norm_num
    simp only [baseS]
    rw [show ((1 : ℝ) - ((1 : ℤ) : ℝ) * (1/2 : ℝ)) = (1/2 : ℝ) by norm_num, Real.rpow_one]
    norm_num [Rng.head]
  · exact h3.2

/-- C5 counterexample: a configuration that is invalid in every way the
claim lists (seed endpoint count 0, step length -1, kill distance -5,
influence -15) still constructs an engine; no error is detected at
construction. -/
theorem c5_counterexample :
    (initSCA 0 (-1) 2000 (-5) (-15) (fun _ => ⟨0, 0, 0⟩) 0 (fun _ => false) []
      0 1 0).isSome = true := by
  rfl

/-- C5 amended: construction performs no validation at all — with an empty
seeding loop and no presets it succeeds for every parameter assignment,
storing the invalid step length and kill distance unchanged. -/
theorem c5_amended_no_validation (d KILLDIST INFLUENCE TROPISM ac acf : ℝ)
    (NBP apicaltiming : ℤ) (vol : ℕ → V3) (exclude : V3 → Bool) :
    ∃ s : SCA,
      initSCA 0 d NBP KILLDIST INFLUENCE vol TROPISM exclude [] ac acf apicaltiming = some s ∧
      s.branchlength = d ∧ s.killdistance = KILLDIST := by
  exact ⟨_, rfl, rfl, rfl⟩

/-- C4: constructing with one preset starting point does not complete: the
parent-chain walk of the first preset commit evaluates `self.bpp[-1]` on
the just-reset empty parent list, an IndexError.  The engine never records
a parentless preset root. -/
theorem c4_preset_crash :
    initSCA 0 0.3 2000 5 15 (fun _ => ⟨0, 0, 0⟩) 0 (fun _ => false) [⟨1, 2, 3⟩]
      0 1 0 = none := by
  simp [initSCA, seedLoop, presetLoop, SCA.addBranchPoint, stampWalk, pySet, pyGet]

/-- Squared magnitudes are nonnegative. -/
lemma V3.dot_self_nonneg (v : V3) : 0 ≤ V3.dot v v :=
  add_nonneg (add_nonneg (mul_self_nonneg v.x) (mul_self_nonneg v.y)) (mul_self_nonneg v.z)

/-- The scan of `closest` only ever binds an index whose child count entry
is at most 1: invariant form over the remaining list, the running index
and the accumulator. -/
lemma closestAux_some_count (q : V3) (bpc : List ℤ) :
    ∀ (l : List (V3 × ℤ)) (i : ℕ) (d2 : ℝ) (best : Option (ℕ × V3)),
      (∀ k pc, l.get? k = some pc → bpc.get? (i + k) = some pc.2) →
      (∀ j v, best = some (j, v) → ∃ c, bpc.get? j = some c ∧ c ≤ 1) →
      ∀ j v, (closestAux q l i d2 best).2 = some (j, v) →
        ∃ c, bpc.get? j = some c ∧ c ≤ 1 := by
  intro l
  induction l with
  | nil =>
    intro i d2 best _ hb j v hres
    exact hb j v hres
  | cons pc rest ih =>
    intro i d2 best hl hb j v hres
    have hl' : ∀ k pc1, rest.get? k = some pc1 → bpc.get? (i + 1 + k) = some pc1.2 := by
      intro k pc1 hk
      have := hl (k + 1) pc1 (by simpa using hk)
      simpa [Nat.add_assoc, Nat.add_comm 1 k] using this
    by_cases hfull : 1 < pc.2
    · rw [closestAux, if_pos hfull] at hres
      exact ih (i + 1) d2 best hl' hb j v hres
    · by_cases hlt : V3.dot (V3.sub q pc.1) (V3.sub q pc.1) < d2
      · rw [closestAux, if_neg hfull] at hres
        simp only [hlt, if_pos] at hres
        refine ih (i + 1) _ _ hl' ?_ j v hres
        intro j1 v1 hj1
        simp only [Option.some.injEq, Prod.mk.injEq] at hj1
        obtain ⟨h1, -⟩ := hj1
        subst h1
        refine ⟨pc.2, ?_, not_lt.mp hfull⟩
        simpa using hl 0 pc rfl
      · rw [closestAux, if_neg hfull] at hres
        simp only [hlt, if_neg, if_false] at hres
        exact ih (i + 1) d2 best hl' hb j v hres

/-- When every scanned entry has more than one child, the scan returns its
accumulator unchanged — with an unbound index when it started unbound. -/
lemma closestAux_all_full (q : V3) :
    ∀ (l : List (V3 × ℤ)) (i : ℕ) (d2 : ℝ),
      (∀ pc ∈ l, 1 < pc.2) → closestAux q l i d2 none = (d2, none) := by
  intro l
  induction l with
  | nil => intro i d2 _; rfl
  | cons pc rest ih =>
    intro i d2 hfull
    rw [closestAux, if_pos (hfull pc (List.mem_cons_self pc rest))]
    exact ih (i + 1) d2 fun x hx => hfull x (List.mem_cons_of_mem pc hx)

/-- The running least squared distance never increases. -/
lemma closestAux_fst_le (q : V3) :
    ∀ (l : List (V3 × ℤ)) (i : ℕ) (d2 : ℝ) (best : Option (ℕ × V3)),
      (closestAux q l i d2 best).1 ≤ d2 := by
  intro l
  induction l with
  | nil => intro i d2 best; exact le_rfl
  | cons pc rest ih =>
    intro i d2 best
    by_cases hfull : 1 < pc.2
    · rw [closestAux, if_pos hfull]; exact ih (i + 1) d2 best
    · by_cases hlt : V3.dot (V3.sub q pc.1) (V3.sub q pc.1) < d2
      · rw [closestAux, if_neg hfull]
        simp only [hlt, if_pos]
        exact le_trans (ih (i + 1) _ _) (le_of_lt hlt)
      · rw [closestAux, if_neg hfull]
        simp only [hlt, if_neg, if_false]
        exact ih (i + 1) d2 best

/-- The final least squared distance is bounded by the squared distance of
every growable entry scanned. -/
lemma closestAux_le_growable (q : V3) :
    ∀ (l : List (V3 × ℤ)) (i : ℕ) (d2 : ℝ) (best : Option (ℕ × V3)) (pc : V3 × ℤ),
      pc ∈ l → pc.2 ≤ 1 →
      (closestAux q l i d2 best).1 ≤ V3.dot (V3.sub q pc.1) (V3.sub q pc.1) := by
  intro l
  induction l with
  | nil => intro i d2 best pc hmem; exact absurd hmem (List.not_mem_nil pc)
  | cons hd rest ih =>
    intro i d2 best pc hmem hgrow
    rcases List.mem_cons.mp hmem with heq | hmem'
    · subst heq
      rw [closestAux, if_neg (not_lt.mpr hgrow)]
      by_cases hlt : V3.dot (V3.sub q pc.1) (V3.sub q pc.1) < d2
      · simp only [hlt, if_pos]
        exact closestAux_fst_le q rest (i + 1) _ _
      · simp only [hlt, if_neg, if_false]
        exact le_trans (closestAux_fst_le q rest (i + 1) d2 best) (not_lt.mp hlt)
    · by_cases hfull : 1 < hd.2
      · rw [closestAux, if_pos hfull]
        exact ih (i + 1) d2 best pc hmem' hgrow
      · rw [closestAux, if_neg hfull]
        by_cases hlt : V3.dot (V3.sub q hd.1) (V3.sub q hd.1) < d2
        · simp only [hlt, if_pos]
          exact ih (i + 1) _ _ pc hmem' hgrow
        · simp only [hlt, if_neg, if_false]
          exact ih (i + 1) d2 best pc hmem' hgrow

/-- Once the scan has a bound index it keeps one. -/
lemma closestAux_isSome_mono (q : V3) :
    ∀ (l : List (V3 × ℤ)) (i : ℕ) (d2 : ℝ) (j : ℕ) (v : V3),
      ((closestAux q l i d2 (some (j, v))).2).isSome = true := by
  intro l
  induction l with
  | nil => intro i d2 j v; rfl
  | cons hd rest ih =>
    intro i d2 j v
    by_cases hfull : 1 < hd.2
    · rw [closestAux, if_pos hfull]; exact ih (i + 1) d2 j v
    · rw [closestAux, if_neg hfull]
      by_cases hlt : V3.dot (V3.sub q hd.1) (V3.sub q hd.1) < d2
      · simp only [hlt, if_pos]; exact ih (i + 1) _ i _
      · simp only [hlt, if_neg, if_false]; exact ih (i + 1) d2 j v

/-- A growable entry whose squared distance beats the running minimum
guarantees the scan binds some index. -/
lemma closestAux_isSome (q : V3) :
    ∀ (l : List (V3 × ℤ)) (i : ℕ) (d2 : ℝ) (best : Option (ℕ × V3)) (pc : V3 × ℤ),
      pc ∈ l → pc.2 ≤ 1 → V3.dot (V3.sub q pc.1) (V3.sub q pc.1) < d2 →
      ((closestAux q l i d2 best).2).isSome = true := by
  intro l
  induction l with
  | nil => intro i d2 best pc hmem; exact absurd hmem (List.not_mem_nil pc)
  | cons hd rest ih =>
    intro i d2 best pc hmem hgrow hclose
    rcases List.mem_cons.mp hmem with heq | hmem'
    · subst heq
      rw [closestAux, if_neg (not_lt.mpr hgrow)]
      simp only [hclose, if_pos]
      exact closestAux_isSome_mono q rest (i + 1) _ i _
    · by_cases hfull : 1 < hd.2
      · rw [closestAux, if_pos hfull]
        exact ih (i + 1) d2 best pc hmem' hgrow hclose
      · rw [closestAux, if_neg hfull]
        by_cases hlt : V3.dot (V3.sub q hd.1) (V3.sub q hd.1) < d2
        · simp only [hlt, if_pos]
          exact closestAux_isSome_mono q rest (i + 1) _ i _
        · simp only [hlt, if_neg, if_false]
          exact ih (i + 1) d2 best pc hmem' hgrow hclose

/-- When no scanned growable entry sits exactly at the query point, a bound
result comes with a positive least squared distance. -/
lemma closestAux_pos (q : V3) :
    ∀ (l : List (V3 × ℤ)) (i : ℕ) (d2 : ℝ) (best : Option (ℕ × V3)),
      (∀ pc ∈ l, pc.2 ≤ 1 → V3.dot (V3.sub q pc.1) (V3.sub q pc.1) ≠ 0) →
      (∀ j v, best = some (j, v) → 0 < d2) →
      ∀ j v, (closestAux q l i d2 best).2 = some (j, v) →
        0 < (closestAux q l i d2 best).1 := by
  intro l
  induction l with
  | nil =>
    intro i d2 best _ hb j v hres
    exact hb j v hres
  | cons hd rest ih =>
    intro i d2 best hz hb j v hres
    have hz' : ∀ pc ∈ rest, pc.2 ≤ 1 → V3.dot (V3.sub q pc.1) (V3.sub q pc.1) ≠ 0 :=
      fun pc hm => hz pc (List.mem_cons_of_mem hd hm)
    by_cases hfull : 1 < hd.2
    · rw [closestAux, if_pos hfull] at hres ⊢
      exact ih (i + 1) d2 best hz' hb j v hres
    · by_cases hlt : V3.dot (V3.sub q hd.1) (V3.sub q hd.1) < d2
      · rw [closestAux, if_neg hfull] at hres ⊢
        simp only [hlt, if_pos] at hres ⊢
        refine ih (i + 1) _ _ hz' ?_ j v hres
        intro _ _ _
        have hne := hz hd (List.mem_cons_self hd rest) (not_lt.mp hfull)
        exact lt_of_le_of_ne (V3.dot_self_nonneg _) (Ne.symm hne)
      · rw [closestAux, if_neg hfull] at hres ⊢
        simp only [hlt, if_neg, if_false] at hres ⊢
        exact ih (i + 1) d2 best hz' hb j v hres

/-- C7: whenever some branch point is growable (child count at most 1) and
`closestBranchPoint` returns, the returned index is either the
out-of-range sentinel `-2` or the index of a branch point whose child
count entry is at most 1 — never one with two children. -/
theorem c7_closest_branch_point_not_full (s : SCA) (p : V3) (bi : ℤ) (v : V3) (d : ℝ)
    (hgrow : ∃ c ∈ s.bpc, c ≤ 1)
    (hres : s.closestBranchPoint p = some (bi, v, d)) :
    bi = -2 ∨ ∃ (j : ℕ) (c : ℤ), bi = (j : ℤ) ∧ s.bpc.get? j = some c ∧ c ≤ 1 := by
  simp only [SCA.closestBranchPoint, cbpCore] at hres
  rcases hcl : (closest s.bp s.bpc p).2 with _ | civ
  · simp only [hcl] at hres
    exact absurd hres (by simp)
  · simp only [hcl] at hres
    by_cases hz : Real.sqrt (closest s.bp s.bpc p).1 = 0
    · rw [if_pos hz] at hres
      exact absurd hres (by simp)
    · rw [if_neg hz] at hres
      simp only [Option.some.injEq, Prod.mk.injEq] at hres
      obtain ⟨h1, -⟩ := hres
      by_cases hinf : Real.sqrt (closest s.bp s.bpc p).1 < s.influence
      · right
        rw [if_pos hinf] at h1
        have hl : ∀ k pc, (s.bp.zip s.bpc).get? k = some pc →
            s.bpc.get? (0 + k) = some pc.2 := by
          intro k pc hk
          rw [List.get?_eq_getElem?] at hk
          rw [List.get?_eq_getElem?]
          simpa using (List.getElem?_zip_eq_some.mp hk).2
        have hcl' : (closestAux p (s.bp.zip s.bpc) 0 1e30 none).2 = some (civ.1, civ.2) := by
          simpa [closest] using hcl
        obtain ⟨c, hc, hcle⟩ :=
          closestAux_some_count p s.bpc (s.bp.zip s.bpc) 0 1e30 none hl (by simp)
            civ.1 civ.2 hcl'
        exact ⟨civ.1, c, h1.symm, hc, hcle⟩
      · left
        rw [if_neg hinf] at h1
        exact h1.symm

/-- Witness for C7: the store with one root at the origin and child count
0, queried from distance 1 (influence radius 5), returns index 0, which is
growable. -/
theorem c7_closest_branch_point_not_full_witness :
    (0 : ℤ) = -2 ∨ ∃ (j : ℕ) (c : ℤ), (0 : ℤ) = (j : ℤ) ∧ baseS.bpc.get? j = some c ∧ c ≤ 1 := by
  refine c7_closest_branch_point_not_full baseS ⟨1, 0, 0⟩ 0 ⟨1, 0, 0⟩ 1
    ⟨0, by simp [baseS], by norm_num⟩ ?_
  norm_num [SCA.closestBranchPoint, cbpCore, closest, closestAux, baseS, V3.sub, V3.dot,
    V3.div, Real.sqrt_one]

/-- C10 amended: `closestBranchPoint` fails (the scan completes without
binding an index) when every branch point is full — in particular on an
empty store; it fails by dividing by zero when some growable branch point
coincides with the query point; and it returns a result whenever some
growable branch point lies at squared distance below the scan's initial
sentinel `1e30` and no growable branch point coincides with the query
point.  (The claim's precondition omits the `1e30` bound; see the
counterexample.) -/
theorem c10_amended_definedness (s : SCA) (p : V3) :
    ((∀ c ∈ s.bpc, 1 < c) → s.closestBranchPoint p = none) ∧
    ((∃ (k : ℕ) (pos : V3) (c : ℤ), s.bp.get? k = some pos ∧ s.bpc.get? k = some c ∧ c ≤ 1 ∧
        V3.dot (V3.sub p pos) (V3.sub p pos) = 0) → s.closestBranchPoint p = none) ∧
    ((∃ (k : ℕ) (pos : V3) (c : ℤ), s.bp.get? k = some pos ∧ s.bpc.get? k = some c ∧ c ≤ 1 ∧
        V3.dot (V3.sub p pos) (V3.sub p pos) < 1e30) →
      (∀ (k : ℕ) (pos : V3) (c : ℤ), s.bp.get? k = some pos → s.bpc.get? k = some c → c ≤ 1 →
        V3.dot (V3.sub p pos) (V3.sub p pos) ≠ 0) →
      (s.closestBranchPoint p).isSome = true) := by
  refine ⟨?_, ?_, ?_⟩
  · intro hfull
    have hz : ∀ pc ∈ s.bp.zip s.bpc, 1 < pc.2 :=
      fun pc hm => hfull pc.2 (List.of_mem_zip hm).2
    simp only [SCA.closestBranchPoint, cbpCore, closest,
      closestAux_all_full p (s.bp.zip s.bpc) 0 1e30 hz]
  · intro hex
    obtain ⟨k, pos, c, hb, hc, hg, hz⟩ := hex
    have hmem : (pos, c) ∈ s.bp.zip s.bpc := by
      rw [List.mem_iff_getElem?]
      refine ⟨k, List.getElem?_zip_eq_some.mpr ⟨?_, ?_⟩⟩
      · rw [← List.get?_eq_getElem?]; exact hb
      · rw [← List.get?_eq_getElem?]; exact hc
    have hle : (closest s.bp s.bpc p).1 ≤ 0 := by
      have h := closestAux_le_growable p (s.bp.zip s.bpc) 0 1e30 none (pos, c) hmem hg
      simpa [closest, hz] using h
    have hsq : Real.sqrt (closest s.bp s.bpc p).1 = 0 := Real.sqrt_eq_zero'.mpr hle
    simp only [SCA.closestBranchPoint, cbpCore]
    rcases hcl : (closest s.bp s.bpc p).2 with _ | civ
    · simp [hcl]
    · simp [hcl, hsq]
  · intro hex hall
    obtain ⟨k, pos, c, hb, hc, hg, hlt⟩ := hex
    have hmem : (pos, c) ∈ s.bp.zip s.bpc := by
      rw [List.mem_iff_getElem?]
      refine ⟨k, List.getElem?_zip_eq_some.mpr ⟨?_, ?_⟩⟩
      · rw [← List.get?_eq_getElem?]; exact hb
      · rw [← List.get?_eq_getElem?]; exact hc
    have hsome : ((closest s.bp s.bpc p).2).isSome = true := by
      simpa [closest] using
        closestAux_isSome p (s.bp.zip s.bpc) 0 1e30 none (pos, c) hmem hg hlt
    obtain ⟨civ, hcl⟩ := Option.isSome_iff_exists.mp hsome
    have hzall : ∀ pc ∈ s.bp.zip s.bpc, pc.2 ≤ 1 →
        V3.dot (V3.sub p pc.1) (V3.sub p pc.1) ≠ 0 := by
      intro pc hm hle1
      obtain ⟨n, hn⟩ := List.getElem?_of_mem hm
      have hcomp := List.getElem?_zip_eq_some.mp hn
      refine hall n pc.1 pc.2 ?_ ?_ hle1
      · rw [List.get?_eq_getElem?]; exact hcomp.1
      · rw [List.get?_eq_getElem?]; exact hcomp.2
    have hpos : 0 < (closest s.bp s.bpc p).1 := by
      have h := closestAux_pos p (s.bp.zip s.bpc) 0 1e30 none hzall (by simp)
        civ.1 civ.2 (by simpa [closest] using hcl)
      simpa [closest] using h
    have hsq : Real.sqrt (closest s.bp s.bpc p).1 ≠ 0 :=
      ne_of_gt (Real.sqrt_pos.mpr hpos)
    simp [SCA.closestBranchPoint, cbpCore, hcl, hsq]

/-- Witness for C10 amended: queried from the baseline store (one growable
root at the origin, query at distance 1) the third conjunct applies: the
call returns a result. -/
theorem c10_amended_definedness_witness :
    (SCA.closestBranchPoint baseS ⟨1, 0, 0⟩).isSome = true := by
  refine (c10_amended_definedness baseS ⟨1, 0, 0⟩).2.2 ⟨0, ⟨0, 0, 0⟩, 0, ?_, ?_, ?_, ?_⟩ ?_
  · simp [baseS]
  · simp [baseS]
  · norm_num
  · norm_num [V3.sub, V3.dot]
  · intro k pos c hb hc _
    have hk : k = 0 := by
      by_contra hne
      rcases Nat.exists_eq_succ_of_ne_zero hne with ⟨m, rfl⟩
      simp [baseS] at hb
    subst hk
    simp only [baseS] at hb
    simp only [List.get?] at hb
    cases hb
    norm_num [V3.sub, V3.dot]

/-- C10 counterexample: one growable branch point at squared distance
`1e32` from the query (nonzero, so the stated precondition holds), yet the
scan's initial sentinel `1e30` is never beaten, `ci` stays unbound, and
the call fails. -/
theorem c10_counterexample :
    (∃ c ∈ SCA.bpc { baseS with bp := [⟨1e16, 0, 0⟩] }, c ≤ 1) ∧
    V3.dot (V3.sub ⟨0, 0, 0⟩ ⟨1e16, 0, 0⟩) (V3.sub ⟨0, 0, 0⟩ ⟨1e16, 0, 0⟩) ≠ 0 ∧
    SCA.closestBranchPoint { baseS with bp := [⟨1e16, 0, 0⟩] } ⟨0, 0, 0⟩ = none := by
  refine ⟨⟨0, by simp [baseS], by norm_num⟩, by norm_num [V3.sub, V3.dot], ?_⟩
  norm_num [SCA.closestBranchPoint, cbpCore, closest, closestAux, baseS, V3.sub, V3.dot]

/-- Python item assignment preserves the list length. -/
lemma pySet_length {α : Type} (l : List α) (i : ℤ) (a : α) (l' : List α)
    (h : pySet l i a = some l') : l'.length = l.length := by
  unfold pySet at h
  split at h
  · split at h
    · obtain rfl := Option.some.inj h
      exact List.length_set l i.toNat a
    · exact absurd h (by simp)
  · split at h
    · obtain rfl := Option.some.inj h
      exact List.length_set l _ a
    · exact absurd h (by simp)

/-- Python subscripting at a nonnegative index is plain list lookup. -/
lemma pyGet_nonneg {α : Type} (l : List α) (n : ℕ) : pyGet l (n : ℤ) = l.get? n := by
  simp [pyGet]

/-- Python assignment at a nonnegative in-range index is plain list `set`. -/
lemma pySet_nonneg {α : Type} (l : List α) (n : ℕ) (a : α) (h : n < l.length) :
    pySet l (n : ℤ) a = some (l.set n a) := by
  simp [pySet, h]

/-- The parent-chain stamping walk only overwrites entries, never changing
the length of the generation array. -/
lemma stampWalk_length (bpp : List (Option ℤ)) (g : ℤ) :
    ∀ (fuel : ℕ) (o : Option ℤ) (bpg bpg' : List ℤ),
      stampWalk bpp g o bpg fuel = some bpg' → bpg'.length = bpg.length := by
  intro fuel
  induction fuel with
  | zero =>
    intro o bpg bpg' h
    cases o with
    | none => exact congrArg List.length (Option.some.inj h).symm
    | some ppi => exact absurd h (by simp [stampWalk])
  | succ fuel ih =>
    intro o bpg bpg' h
    cases o with
    | none => exact congrArg List.length (Option.some.inj h).symm
    | some ppi =>
      rw [stampWalk] at h
      simp only [Option.bind_eq_some] at h
      obtain ⟨bpg1, h1, nxt, h2, h3⟩ := h
      exact (ih nxt bpg1 bpg' h3).trans (pySet_length bpg ppi g bpg1 h1)

/-- The kill/update loop returns lists of the same lengths as its inputs. -/
lemma updateEPs_lengths (kill influence : ℝ) (npos : V3) (bi : ℤ) :
    ∀ (es : List V3) (ds : List ℝ) (bs : List ℤ) (vs : List V3)
      (r : List ℤ × List V3 × List ℝ),
      updateEPs kill influence npos bi es ds bs vs = some r →
      r.1.length = bs.length ∧ r.2.1.length = vs.length ∧ r.2.2.length = ds.length := by
  intro es
  induction es with
  | nil =>
    intro ds bs vs r h
    obtain rfl := Option.some.inj h
    exact ⟨rfl, rfl, rfl⟩
  | cons e es ih =>
    intro ds bs vs r h
    cases ds with
    | nil => obtain rfl := Option.some.inj h; exact ⟨rfl, rfl, rfl⟩
    | cons d0 ds =>
      cases bs with
      | nil => obtain rfl := Option.some.inj h; exact ⟨rfl, rfl, rfl⟩
      | cons b0 bs =>
        cases vs with
        | nil => obtain rfl := Option.some.inj h; exact ⟨rfl, rfl, rfl⟩
        | cons v0 vs =>
          rw [updateEPs] at h
          simp only [Option.bind_eq_some] at h
          obtain ⟨u, hu, rest, hrest, hr⟩ := h
          obtain rfl := Option.some.inj hr
          obtain ⟨h1, h2, h3⟩ := ih ds bs vs rest hrest
          exact ⟨by simpa using h1, by simpa using h2, by simpa using h3⟩

/-- The reassignment loop returns lists of the same lengths as its inputs. -/
lemma reassignEPs_lengths (bp : List V3) (bpc : List ℤ) (influence : ℝ) (pi : ℤ) :
    ∀ (es : List V3) (bs : List ℤ) (vs : List V3) (ds : List ℝ)
      (r : List ℤ × List V3 × List ℝ),
      reassignEPs bp bpc influence pi es bs vs ds = some r →
      r.1.length = bs.length ∧ r.2.1.length = vs.length ∧ r.2.2.length = ds.length := by
  intro es
  induction es with
  | nil =>
    intro bs vs ds r h
    obtain rfl := Option.some.inj h
    exact ⟨rfl, rfl, rfl⟩
  | cons e es ih =>
    intro bs vs ds r h
    cases bs with
    | nil => obtain rfl := Option.some.inj h; exact ⟨rfl, rfl, rfl⟩
    | cons b0 bs =>
      cases vs with
      | nil => obtain rfl := Option.some.inj h; exact ⟨rfl, rfl, rfl⟩
      | cons v0 vs =>
        cases ds with
        | nil => obtain rfl := Option.some.inj h; exact ⟨rfl, rfl, rfl⟩
        | cons d0 ds =>
          rw [reassignEPs] at h
          simp only [Option.bind_eq_some] at h
          obtain ⟨u, hu, rest, hrest, hr⟩ := h
          obtain rfl := Option.some.inj hr
          obtain ⟨h1, h2, h3⟩ := ih bs vs ds rest hrest
          exact ⟨by simpa using h1, by simpa using h2, by simpa using h3⟩

/-- Successful `addBranchPoint` commits decompose into the source's
sequence of effects: position and parent appended, generation and apical
arrays grown by one, endpoints untouched as positions, the child count
array extended by a fresh 0 and bumped at the parent slot, the kill/update
loop applied, and the reassignment loop applied exactly when the parent's
new child count exceeds 1.  All configuration fields survive unchanged. -/
lemma addBranchPoint_spec (s : SCA) (pos : V3) (pi generation : ℤ) (s' : SCA)
    (h : s.addBranchPoint pos pi generation = some s') :
    s'.bp = s.bp ++ [pos] ∧
    s'.bpp = s.bpp ++ [some pi] ∧
    s'.bpg.length = s.bpg.length + 1 ∧
    s'.bpa.length = s.bpa.length + 1 ∧
    s'.ep = s.ep ∧
    (∃ cpi, pyGet (s.bpc ++ [0]) pi = some cpi ∧
      pySet (s.bpc ++ [0]) pi (cpi + 1) = some s'.bpc) ∧
    (∃ u : List ℤ × List V3 × List ℝ, ∃ c2 : ℤ,
      updateEPs s.killdistance s.influence pos (((s.bp ++ [pos]).length : ℤ) - 1)
        s.ep s.epd s.epb s.epv = some u ∧
      pyGet s'.bpc pi = some c2 ∧
      ((1 < c2 ∧ reassignEPs (s.bp ++ [pos]) s'.bpc s.influence pi s.ep u.1 u.2.1 u.2.2
          = some (s'.epb, s'.epv, s'.epd)) ∨
       (¬ 1 < c2 ∧ s'.epb = u.1 ∧ s'.epv = u.2.1 ∧ s'.epd = u.2.2))) ∧
    s'.influence = s.influence ∧ s'.killdistance = s.killdistance ∧
    s'.branchlength = s.branchlength ∧ s'.tropism = s.tropism ∧
    s'.maxiterations = s.maxiterations ∧ s'.exclude = s.exclude ∧
    s'.volumepoint = s.volumepoint ∧ s'.volpos = s.volpos ∧
    s'.apicalcontrol = s.apicalcontrol ∧ s'.apicalcontrolfalloff = s.apicalcontrolfalloff ∧
    s'.apicaltiming = s.apicaltiming ∧ s'.apicalstep = s.apicalstep := by
  unfold SCA.addBranchPoint at h
  simp only [Option.bind_eq_some] at h
  obtain ⟨bpg2, hstamp, cpi, hcpi, bpc2, hbpc2, u, hu, c2, hc2, w, hw, a0, ha0, bpa2, hbpa2, hfin⟩ := h
  obtain rfl := Option.some.inj hfin
  refine ⟨rfl, rfl, ?_, ?_, rfl, ⟨cpi, hcpi, ?_⟩, ⟨u, c2, hu, ?_, ?_⟩,
    rfl, rfl, rfl, rfl, rfl, rfl, rfl, rfl, rfl, rfl, rfl, rfl⟩
  · have h1 := stampWalk_length s.bpp generation (s.bpp.length + 1) (some pi)
      (s.bpg ++ [generation]) bpg2 hstamp
    simpa using h1
  · have h1 := pySet_length (s.bpa ++ [0]) pi (a0 + 1) bpa2 hbpa2
    simpa using h1
  · exact hbpc2
  · exact hc2
  · by_cases hlt : 1 < c2
    · left
      refine ⟨hlt, ?_⟩
      rw [if_pos hlt] at hw
      simpa using hw
    · right
      rw [if_neg hlt] at hw
      obtain rfl := Option.some.inj hw
      exact ⟨hlt, rfl, rfl, rfl⟩

/-- Successful `addEndPoint` appends the endpoint with the association
triple returned by `closestBranchPoint`, touching nothing else. -/
lemma addEndPoint_spec (s : SCA) (e : V3) (s' : SCA)
    (h : s.addEndPoint e = some s') :
    ∃ r : ℤ × V3 × ℝ, s.closestBranchPoint e = some r ∧
      s'.ep = s.ep ++ [e] ∧ s'.epb = s.epb ++ [r.1] ∧
      s'.epv = s.epv ++ [r.2.1] ∧ s'.epd = s.epd ++ [r.2.2] ∧
      s'.bp = s.bp ∧ s'.bpc = s.bpc ∧ s'.bpp = s.bpp ∧ s'.bpg = s.bpg ∧ s'.bpa = s.bpa ∧
      s'.influence = s.influence ∧ s'.killdistance = s.killdistance ∧
      s'.branchlength = s.branchlength ∧ s'.tropism = s.tropism ∧
      s'.maxiterations = s.maxiterations ∧ s'.exclude = s.exclude ∧
      s'.volumepoint = s.volumepoint ∧
      s'.apicalcontrol = s.apicalcontrol ∧ s'.apicalcontrolfalloff = s.apicalcontrolfalloff ∧
      s'.apicaltiming = s.apicaltiming ∧ s'.apicalstep = s.apicalstep := by
  unfold SCA.addEndPoint at h
  simp only [Option.bind_eq_some] at h
  obtain ⟨r, hr, hfin⟩ := h
  obtain rfl := Option.some.inj hfin
  exact ⟨r, hr, rfl, rfl, rfl, rfl, rfl, rfl, rfl, rfl, rfl, rfl, rfl, rfl, rfl, rfl,
    rfl, rfl, rfl, rfl, rfl, rfl⟩

/-- The kill/update loop never touches an endpoint whose association is
already `-1`: the loop body is guarded by `epb != -1`. -/
lemma updateEPs_dead (kill influence : ℝ) (npos : V3) (bi : ℤ) :
    ∀ (es : List V3) (ds : List ℝ) (bs : List ℤ) (vs : List V3)
      (r : List ℤ × List V3 × List ℝ),
      updateEPs kill influence npos bi es ds bs vs = some r →
      ∀ k, bs.get? k = some (-1) → r.1.get? k = some (-1) := by
  intro es
  induction es with
  | nil =>
    intro ds bs vs r h k hk
    obtain rfl := Option.some.inj h
    exact hk
  | cons e es ih =>
    intro ds bs vs r h k hk
    cases ds with
    | nil => obtain rfl := Option.some.inj h; exact hk
    | cons d0 ds =>
      cases bs with
      | nil => obtain rfl := Option.some.inj h; exact hk
      | cons b0 bs =>
        cases vs with
        | nil => obtain rfl := Option.some.inj h; exact hk
        | cons v0 vs =>
          rw [updateEPs] at h
          simp only [Option.bind_eq_some] at h
          obtain ⟨u, hu, rest, hrest, hr⟩ := h
          obtain rfl := Option.some.inj hr
          cases k with
          | zero =>
            have hb0 : b0 = -1 := by simpa using hk
            have hu1 : u = (b0, v0, d0) := by
              rw [epUpdate, if_neg (by simp [hb0])] at hu
              exact (Option.some.inj hu).symm
            simp [hu1, hb0]
          | succ k =>
            have := ih ds bs vs rest hrest k (by simpa using hk)
            simpa using this

/-- The reassignment loop with a non-`-1` parent index never touches a
dead endpoint: the loop body is guarded by `epb == pi`. -/
lemma reassignEPs_dead (bp : List V3) (bpc : List ℤ) (influence : ℝ) (pi : ℤ)
    (hpi : pi ≠ -1) :
    ∀ (es : List V3) (bs : List ℤ) (vs : List V3) (ds : List ℝ)
      (r : List ℤ × List V3 × List ℝ),
      reassignEPs bp bpc influence pi es bs vs ds = some r →
      ∀ k, bs.get? k = some (-1) → r.1.get? k = some (-1) := by
  intro es
  induction es with
  | nil =>
    intro bs vs ds r h k hk
    obtain rfl := Option.some.inj h
    exact hk
  | cons e es ih =>
    intro bs vs ds r h k hk
    cases bs with
    | nil => obtain rfl := Option.some.inj h; exact hk
    | cons b0 bs =>
      cases vs with
      | nil => obtain rfl := Option.some.inj h; exact hk
      | cons v0 vs =>
        cases ds with
        | nil => obtain rfl := Option.some.inj h; exact hk
        | cons d0 ds =>
          rw [reassignEPs] at h
          simp only [Option.bind_eq_some] at h
          obtain ⟨u, hu, rest, hrest, hr⟩ := h
          obtain rfl := Option.some.inj hr
          cases k with
          | zero =>
            have hb0 : b0 = -1 := by simpa using hk
            have hne : b0 ≠ pi := fun hc => hpi (hc ▸ hb0)
            rw [if_neg hne] at hu
            have hu1 : u = (b0, v0, d0) := (Option.some.inj hu).symm
            simp [hu1, hb0]
          | succ k =>
            have := ih bs vs ds rest hrest k (by simpa using hk)
            simpa using this

/-- A successful `addBranchPoint` with parent index other than `-1` (the
only kind the growth loop issues) leaves every dead endpoint dead. -/
lemma addBranchPoint_dead (s : SCA) (pos : V3) (pi generation : ℤ) (s' : SCA)
    (hpi : pi ≠ -1) (h : s.addBranchPoint pos pi generation = some s') :
    ∀ k, s.epb.get? k = some (-1) → s'.epb.get? k = some (-1) := by
  intro k hk
  obtain ⟨-, -, -, -, -, -, ⟨u, c2, hu, -, hre⟩, -⟩ := addBranchPoint_spec s pos pi generation s' h
  have hu1 : u.1.get? k = some (-1) :=
    updateEPs_dead s.killdistance s.influence pos _ s.ep s.epd s.epb s.epv u hu k hk
  rcases hre with ⟨-, hre⟩ | ⟨-, hb, -, -⟩
  · exact reassignEPs_dead (s.bp ++ [pos]) s'.bpc s.influence pi hpi s.ep u.1 u.2.1 u.2.2
      (s'.epb, s'.epv, s'.epd) hre k hu1
  · rw [hb]; exact hu1

/-- Every candidate collected by the growth phase names a parent index
from the iteration sequence it was given. -/
lemma growPhase_parents (s : SCA) :
    ∀ (order : List ℤ) (rng : Rng) (r : List (V3 × ℤ) × Rng),
      s.growPhase order rng = some r → ∀ cp ∈ r.1, cp.2 ∈ order := by
  intro order
  induction order with
  | nil =>
    intro rng r h cp hm
    obtain rfl := Option.some.inj h
    simp at hm
  | cons bpi rest ih =>
    intro rng r h cp hm
    rw [SCA.growPhase] at h
    simp only [Option.bind_eq_some] at h
    obtain ⟨af, haf, h2⟩ := h
    by_cases hsup : (s.shootSupressed af rng).1
    · rw [if_pos hsup] at h2
      exact List.mem_cons_of_mem _ (ih _ r h2 cp hm)
    · rw [if_neg hsup] at h2
      simp only [Option.bind_eq_some] at h2
      obtain ⟨c, hc, cr, hcr, hr⟩ := h2
      obtain rfl := Option.some.inj hr
      rcases List.mem_cons.mp hm with heq | hm'
      · rw [heq]
        exact List.mem_cons_self _ _
      · exact List.mem_cons_of_mem _ (ih _ cr hcr cp hm')

/-- The commit loop keeps dead endpoints dead when no candidate names the
parent sentinel `-1`. -/
lemma commitPhase_dead (generation : ℤ) :
    ∀ (cs : List (V3 × ℤ)) (s s' : SCA),
      (∀ cp ∈ cs, cp.2 ≠ -1) →
      SCA.commitPhase generation s cs = some s' →
      ∀ k, s.epb.get? k = some (-1) → s'.epb.get? k = some (-1) := by
  intro cs
  induction cs with
  | nil =>
    intro s s' _ h k hk
    obtain rfl := Option.some.inj h
    exact hk
  | cons c cs ih =>
    intro s s' hne h k hk
    rw [SCA.commitPhase] at h
    by_cases hex : s.exclude c.1
    · rw [if_pos hex] at h
      exact ih s s' (fun cp hm => hne cp (List.mem_cons_of_mem c hm)) h k hk
    · rw [if_neg hex] at h
      simp only [Option.bind_eq_some] at h
      obtain ⟨s1, h1, h2⟩ := h
      have hd1 := addBranchPoint_dead s c.1 c.2 generation s1
        (hne c (List.mem_cons_self c cs)) h1 k hk
      exact ih s1 s' (fun cp hm => hne cp (List.mem_cons_of_mem c hm)) h2 k hd1

/-- One `growBranches` generation keeps dead endpoints dead. -/
lemma growBranches_dead (s : SCA) (rng : Rng) (generation : ℤ) (order : List ℤ)
    (s' : SCA) (rng' : Rng) (h : s.growBranches rng generation order = some (s', rng')) :
    ∀ k, s.epb.get? k = some (-1) → s'.epb.get? k = some (-1) := by
  intro k hk
  rw [SCA.growBranches] at h
  by_cases hord : IsSetOrder s.epb order
  · rw [if_pos hord] at h
    simp only [Option.bind_eq_some] at h
    obtain ⟨cr, hcr, s1, hs1, hfin⟩ := h
    obtain ⟨rfl, -⟩ : s1 = s' ∧ cr.2 = rng' := by
      have := Option.some.inj hfin
      exact ⟨congrArg Prod.fst this, congrArg Prod.snd this⟩
    refine commitPhase_dead generation cr.1 s _ ?_ hs1 k hk
    intro cp hm
    exact ((hord.2.1 cp.2 (growPhase_parents s order rng cr hcr cp hm)).2.1)
  · rw [if_neg hord] at h
    exact absurd h (by simp)

/-- Appending an endpoint keeps every existing association, dead ones
included. -/
lemma addEndPoint_dead (s : SCA) (e : V3) (s' : SCA) (h : s.addEndPoint e = some s') :
    ∀ k, s.epb.get? k = some (-1) → s'.epb.get? k = some (-1) := by
  intro k hk
  obtain ⟨r, -, -, hb, -⟩ := addEndPoint_spec s e s' h
  rw [hb]
  have hlt : k < s.epb.length := (List.get?_eq_some.mp hk).1
  rw [List.get?_append hlt]
  exact hk

/-- Apical decay does not touch the endpoint arrays. -/
lemma apicalDecay_epb (s : SCA) : (SCA.apicalDecay s).epb = s.epb := by
  unfold SCA.apicalDecay
  split <;> rfl

/-- The endpoint-injection loop keeps dead endpoints dead. -/
lemma injectLoop_dead (rate : ℝ) :
    ∀ (fuel : ℕ) (s : SCA) (rng : Rng) (t niterations : ℝ) (r : SCA × Rng × ℝ),
      SCA.injectLoop rate fuel s rng t niterations = some r →
      ∀ k, s.epb.get? k = some (-1) → r.1.epb.get? k = some (-1) := by
  intro fuel
  induction fuel with
  | zero =>
    intro s rng t nit r h k hk
    rw [SCA.injectLoop] at h
    split at h
    · exact absurd h (by simp)
    · obtain rfl := Option.some.inj h
      exact hk
  | succ fuel ih =>
    intro s rng t nit r h k hk
    rw [SCA.injectLoop] at h
    split at h
    · simp only [Option.bind_eq_some] at h
      obtain ⟨s1, h1, h2⟩ := h
      have hd1 := addEndPoint_dead _ _ s1 h1 k hk
      exact ih s1 _ _ _ r h2 k hd1
    · obtain rfl := Option.some.inj h
      exact hk

/-- The generation loop of `iterate` keeps dead endpoints dead. -/
lemma iterLoop_dead (rate maxtime : ℝ) (tOra : ℕ → ℝ) (ordOra : ℕ → List ℤ) (fuel : ℕ) :
    ∀ (remaining i : ℕ) (s : SCA) (rng : Rng) (t niterations : ℝ) (r : SCA × Rng),
      SCA.iterLoop rate maxtime tOra ordOra fuel i remaining s rng t niterations = some r →
      ∀ k, s.epb.get? k = some (-1) → r.1.epb.get? k = some (-1) := by
  intro remaining
  induction remaining with
  | zero =>
    intro i s rng t nit r h k hk
    obtain rfl := Option.some.inj h
    exact hk
  | succ remaining ih =>
    intro i s rng t nit r h k hk
    rw [SCA.iterLoop] at h
    simp only [Option.bind_eq_some] at h
    obtain ⟨sr, hsr, h2⟩ := h
    have hd1 := growBranches_dead s rng (i : ℤ) (ordOra i) sr.1 sr.2 (by simpa using hsr) k hk
    by_cases htime : 0 < maxtime ∧ maxtime < tOra i
    · rw [if_pos htime] at h2
      obtain rfl := Option.some.inj h2
      exact hd1
    · rw [if_neg htime] at h2
      by_cases hrate : 0 < rate
      · rw [if_pos hrate] at h2
        simp only [Option.bind_eq_some] at h2
        obtain ⟨srt, hinj, h3⟩ := h2
        have hd2 := injectLoop_dead rate fuel sr.1 sr.2 t (nit + 1) srt hinj k hd1
        have hd3 : (SCA.apicalDecay srt.1).epb.get? k = some (-1) := by
          rw [apicalDecay_epb]; exact hd2
        exact ih (i + 1) _ _ _ _ r h3 k hd3
      · rw [if_neg hrate] at h2
        have hd3 : (SCA.apicalDecay sr.1).epb.get? k = some (-1) := by
          rw [apicalDecay_epb]; exact hd1
        exact ih (i + 1) _ _ _ _ r h2 k hd3

/-- A whole `iterate` run keeps dead endpoints dead in the final store. -/
lemma iterate_dead (s : SCA) (rng : Rng) (cnt : ℤ) (rate maxtime : ℝ)
    (tOra : ℕ → ℝ) (ordOra : ℕ → List ℤ) (fuel : ℕ)
    (r : SCA × Rng × List BPRec × List V3 × ℤ)
    (h : s.iterate rng cnt rate maxtime tOra ordOra fuel = some r) :
    ∀ k, s.epb.get? k = some (-1) → r.1.epb.get? k = some (-1) := by
  intro k hk
  rw [SCA.iterate] at h
  simp only [Option.bind_eq_some] at h
  obtain ⟨sr, hloop, rec1, hmat, hfin⟩ := h
  have := iterLoop_dead _ _ tOra ordOra fuel _ 0 s _ _ 0 sr hloop k hk
  have hr1 : r.1 = sr.1 := by
    obtain rfl := Option.some.inj hfin
    rfl
  rw [hr1]
  exact this

/-- C6: an endpoint whose association is the DEAD sentinel `-1` keeps that
association across every subsequent operation: every single successful
`addBranchPoint` with a parent index other than `-1` (the only parent
indices the growth loop ever issues; the `-1` of the preset path aborts
construction), and every sequence of `growBranches`, `addEndPoint`, apical
decay and `iterate` operations. -/
theorem c6_dead_endpoints_stay_dead :
    (∀ (s s' : SCA) (pos : V3) (pi generation : ℤ), pi ≠ -1 →
      s.addBranchPoint pos pi generation = some s' →
      ∀ k : ℕ, s.epb.get? k = some (-1) → s'.epb.get? k = some (-1)) ∧
    (∀ (s s' : SCA), Steps s s' →
      ∀ k : ℕ, s.epb.get? k = some (-1) → s'.epb.get? k = some (-1)) := by
  constructor
  · exact fun s s' pos pi generation hpi h => addBranchPoint_dead s pos pi generation s' hpi h
  · intro s s' hsteps
    induction hsteps with
    | refl => exact fun k hk => hk
    | tail s1 s2 h1 h2 ih =>
      intro k hk
      have hk1 := ih k hk
      cases h2 with
      | grow _ rng rng' generation order h =>
        exact growBranches_dead _ rng generation order _ rng' h k hk1
      | addEP _ e h => exact addEndPoint_dead _ e _ h k hk1
      | decay => rw [apicalDecay_epb]; exact hk1
      | iter _ rng rng' cnt cnt' rate maxtime tOra ordOra fuel recs eps h =>
        exact iterate_dead _ rng cnt rate maxtime tOra ordOra fuel _ h k hk1

/-- Witness for C6: the dead endpoint of `sDead` is still dead after an
`addEndPoint` operation. -/
theorem c6_dead_endpoints_stay_dead_witness : sDead2.epb.get? 0 = some (-1) := by
  have hcbp : SCA.closestBranchPoint sDead ⟨1, 0, 0⟩ = some (0, V3.div ⟨1, 0, 0⟩ 1, 1) := by
    norm_num [SCA.closestBranchPoint, cbpCore, closest, closestAux, sDead, baseS,
      V3.sub, V3.dot, Real.sqrt_one]
  have heval : SCA.addEndPoint sDead ⟨1, 0, 0⟩ = some sDead2 := by
    rw [SCA.addEndPoint, hcbp]
    rfl
  exact c6_dead_endpoints_stay_dead.2 sDead sDead2
    (Steps.tail _ _ _ (Steps.refl _) (Step.addEP _ _ ⟨1, 0, 0⟩ heval)) 0 rfl

/-- Python assignment at a nonnegative index succeeds exactly in range,
returning the plain `set`. -/
lemma pySet_nonneg_some {α : Type} (l : List α) (n : ℕ) (a : α) (l' : List α)
    (h : pySet l (n : ℤ) a = some l') : n < l.length ∧ l' = l.set n a := by
  unfold pySet at h
  rw [if_pos (by positivity)] at h
  by_cases hlt : (n : ℤ) < (l.length : ℤ)
  · rw [if_pos hlt] at h
    exact ⟨by exact_mod_cast hlt, by simpa using (Option.some.inj h).symm⟩
  · rw [if_neg hlt] at h
    exact absurd h (by simp)

/-- The `closest` core never returns the index of a branch point with more
than one child: it returns `-2` or an index whose count entry is at most
1. -/
lemma cbpCore_not_full (bp : List V3) (bpc : List ℤ) (influence : ℝ) (p : V3)
    (bi : ℤ) (v : V3) (d : ℝ) (hres : cbpCore bp bpc influence p = some (bi, v, d)) :
    bi = -2 ∨ ∃ (j : ℕ) (c : ℤ), bi = (j : ℤ) ∧ bpc.get? j = some c ∧ c ≤ 1 := by
  simp only [cbpCore] at hres
  rcases hcl : (closest bp bpc p).2 with _ | civ
  · simp only [hcl] at hres
    exact absurd hres (by simp)
  · simp only [hcl] at hres
    by_cases hz : Real.sqrt (closest bp bpc p).1 = 0
    · rw [if_pos hz] at hres
      exact absurd hres (by simp)
    · rw [if_neg hz] at hres
      simp only [Option.some.injEq, Prod.mk.injEq] at hres
      obtain ⟨h1, -⟩ := hres
      by_cases hinf : Real.sqrt (closest bp bpc p).1 < influence
      · right
        rw [if_pos hinf] at h1
        have hl : ∀ k pc, (bp.zip bpc).get? k = some pc →
            bpc.get? (0 + k) = some pc.2 := by
          intro k pc hk
          rw [List.get?_eq_getElem?] at hk
          rw [List.get?_eq_getElem?]
          simpa using (List.getElem?_zip_eq_some.mp hk).2
        have hcl' : (closestAux p (bp.zip bpc) 0 1e30 none).2 = some (civ.1, civ.2) := by
          simpa [closest] using hcl
        obtain ⟨c, hc, hcle⟩ :=
          closestAux_some_count p bpc (bp.zip bpc) 0 1e30 none hl (by simp)
            civ.1 civ.2 hcl'
        exact ⟨civ.1, c, h1.symm, hc, hcle⟩
      · left
        rw [if_neg hinf] at h1
        exact h1.symm

/-- The association written by one kill/update body is the DEAD sentinel,
the out-of-range sentinel, the new index, or the endpoint's old value. -/
lemma epUpdate_first (kill influence : ℝ) (npos : V3) (bi : ℤ)
    (e : V3) (d0 : ℝ) (b0 : ℤ) (v0 : V3) (u : ℤ × V3 × ℝ)
    (h : epUpdate kill influence npos bi e d0 b0 v0 = some u) :
    u.1 = -1 ∨ u.1 = -2 ∨ u.1 = bi ∨ u.1 = b0 := by
  simp only [epUpdate] at h
  split at h
  · split at h
    · split at h
      · split at h
        · exact absurd h (by simp)
        · obtain rfl := (Option.some.inj h).symm
          by_cases hinf : Real.sqrt (V3.dot (V3.sub e npos) (V3.sub e npos)) < influence
          · right; right; left; simp [hinf]
          · right; left; simp [hinf]
      · obtain rfl := (Option.some.inj h).symm
        left; rfl
    · obtain rfl := (Option.some.inj h).symm
      right; right; right; rfl
  · obtain rfl := (Option.some.inj h).symm
    right; right; right; rfl

/-- Every association produced by the kill/update loop is a sentinel, the
new index, or the association previously recorded at the same slot. -/
lemma updateEPs_entry (kill influence : ℝ) (npos : V3) (bi : ℤ) :
    ∀ (es : List V3) (ds : List ℝ) (bs : List ℤ) (vs : List V3)
      (r : List ℤ × List V3 × List ℝ),
      updateEPs kill influence npos bi es ds bs vs = some r →
      ∀ (k : ℕ) (b : ℤ), r.1.get? k = some b →
        b = -1 ∨ b = -2 ∨ b = bi ∨ bs.get? k = some b := by
  intro es
  induction es with
  | nil =>
    intro ds bs vs r h k b hk
    obtain rfl := Option.some.inj h
    right; right; right; exact hk
  | cons e es ih =>
    intro ds bs vs r h k b hk
    cases ds with
    | nil => obtain rfl := Option.some.inj h; right; right; right; exact hk
    | cons d0 ds =>
      cases bs with
      | nil => obtain rfl := Option.some.inj h; right; right; right; exact hk
      | cons b0 bs =>
        cases vs with
        | nil => obtain rfl := Option.some.inj h; right; right; right; exact hk
        | cons v0 vs =>
          rw [updateEPs] at h
          simp only [Option.bind_eq_some] at h
          obtain ⟨u, hu, rest, hrest, hr⟩ := h
          obtain rfl := Option.some.inj hr
          cases k with
          | zero =>
            have hb : b = u.1 := by simpa using hk.symm
            subst hb
            rcases epUpdate_first kill influence npos bi e d0 b0 v0 u hu with
              h1 | h1 | h1 | h1
            · left; exact h1
            · right; left; exact h1
            · right; right; left; exact h1
            · right; right; right; simp [h1]
          | succ k =>
            rcases ih ds bs vs rest hrest k b (by simpa using hk) with h1 | h1 | h1 | h1
            · left; exact h1
            · right; left; exact h1
            · right; right; left; exact h1
            · right; right; right; simpa using h1

/-- Every association produced by the reassignment loop (over lists of
matching lengths) is either kept — and then differs from the reassigned
parent index — or freshly resolved by the `closest` core against the
post-commit store, hence `-2` or the index of a branch point with count at
most 1 there. -/
lemma reassignEPs_entry (bp : List V3) (bpc : List ℤ) (influence : ℝ) (pi : ℤ) :
    ∀ (es : List V3) (bs : List ℤ) (vs : List V3) (ds : List ℝ)
      (r : List ℤ × List V3 × List ℝ),
      bs.length = es.length → vs.length = es.length → ds.length = es.length →
      reassignEPs bp bpc influence pi es bs vs ds = some r →
      ∀ (k : ℕ) (b : ℤ), r.1.get? k = some b →
        (bs.get? k = some b ∧ b ≠ pi) ∨
        b = -2 ∨ ∃ (j : ℕ) (c : ℤ), b = (j : ℤ) ∧ bpc.get? j = some c ∧ c ≤ 1 := by
  intro es
  induction es with
  | nil =>
    intro bs vs ds r hbs hvs hds h k b hk
    obtain rfl := Option.some.inj h
    rw [List.length_eq_zero.mp hbs] at hk
    simp at hk
  | cons e es ih =>
    intro bs vs ds r hbs hvs hds h k b hk
    cases bs with
    | nil => simp at hbs
    | cons b0 bs =>
      cases vs with
      | nil => simp at hvs
      | cons v0 vs =>
        cases ds with
        | nil => simp at hds
        | cons d0 ds =>
          rw [reassignEPs] at h
          simp only [Option.bind_eq_some] at h
          obtain ⟨u, hu, rest, hrest, hr⟩ := h
          obtain rfl := Option.some.inj hr
          cases k with
          | zero =>
            have hb : b = u.1 := by simpa using hk.symm
            subst hb
            by_cases heq : b0 = pi
            · rw [if_pos heq] at hu
              rcases cbpCore_not_full bp bpc influence e u.1 u.2.1 u.2.2
                  (by simpa using hu) with h1 | h1
              · right; left; exact h1
              · right; right; exact h1
            · rw [if_neg heq] at hu
              obtain rfl := (Option.some.inj hu).symm
              left
              exact ⟨by simp, heq⟩
          | succ k =>
            rcases ih bs vs ds rest (by simpa using hbs) (by simpa using hvs)
                (by simpa using hds) hrest k b (by simpa using hk) with h1 | h1
            · left
              exact ⟨by simpa using h1.1, h1.2⟩
            · right; exact h1

/-- Lookup in a list extended by one element: the old entry, or the new
element at the old length. -/
lemma get?_append_singleton {α : Type} (l : List α) (a : α) (k : ℕ) (b : α)
    (h : (l ++ [a]).get? k = some b) : l.get? k = some b ∨ (k = l.length ∧ b = a) := by
  by_cases hk : k < l.length
  · left
    rw [List.get?_append hk] at h
    exact h
  · right
    have hk2 : k < l.length + 1 := by
      have := (List.get?_eq_some.mp h).1
      simpa using this
    have hk3 : k = l.length := by omega
    subst hk3
    rw [List.get?_concat_length] at h
    exact ⟨rfl, (Option.some.inj h).symm⟩

/-- Appending an endpoint preserves the store invariant: the fresh
association comes from the `closest` core, so it is a sentinel or a
growable index. -/
lemma addEndPoint_inv (s : SCA) (e : V3) (s' : SCA) (hInv : StoreInv s)
    (h : s.addEndPoint e = some s') : StoreInv s' := by
  obtain ⟨r, hr, hep, hb, hv, hd, hbp, hbpc, hbpp, hbpg, hbpa, -⟩ := addEndPoint_spec s e s' h
  obtain ⟨l1, l2, l3, l4, l5, l6, l7, hcnt, hepb⟩ := hInv
  refine ⟨by rw [hbpc, hbp]; exact l1, by rw [hbpp, hbp]; exact l2,
    by rw [hbpg, hbp]; exact l3, by rw [hbpa, hbp]; exact l4,
    by rw [hb, hep]; simpa using l5, by rw [hv, hep]; simpa using l6,
    by rw [hd, hep]; simpa using l7, by rw [hbpc]; exact hcnt, ?_⟩
  intro k b hk
  rw [hb] at hk
  rcases get?_append_singleton s.epb r.1 k b hk with hold | ⟨-, rfl⟩
  · rcases hepb k b hold with h1 | h1 | ⟨j, c, hbj, hc, hcle⟩
    · left; exact h1
    · right; left; exact h1
    · right; right; exact ⟨j, c, hbj, by rw [hbpc]; exact hc, hcle⟩
  · rcases cbpCore_not_full s.bp s.bpc s.influence e r.1 r.2.1 r.2.2 hr with h1 | ⟨j, c, hbj, hc, hcle⟩
    · right; left; exact h1
    · right; right; exact ⟨j, c, hbj, by rw [hbpc]; exact hc, hcle⟩

/-- Committing a branch point under a growable parent preserves the store
invariant; the new store has one more branch point and the count entry of
every other branch point is untouched. -/
lemma addBranchPoint_inv (s : SCA) (pos : V3) (j : ℕ) (generation : ℤ) (s' : SCA)
    (hInv : StoreInv s) (hj : j < s.bp.length) (hjc : ∀ c, s.bpc.get? j = some c → c ≤ 1)
    (h : s.addBranchPoint pos (j : ℤ) generation = some s') :
    StoreInv s' ∧ s'.bp.length = s.bp.length + 1 ∧
    (∀ j' : ℕ, j' ≠ j → s'.bpc.get? j' = (s.bpc ++ [0]).get? j') := by
  obtain ⟨hbp, hbpp, hbpgl, hbpal, hep, ⟨cpi, hcpi, hset⟩, ⟨u, c2, hu, hc2, hre⟩, -⟩ :=
    addBranchPoint_spec s pos (j : ℤ) generation s' h
  obtain ⟨l1, l2, l3, l4, l5, l6, l7, hcnt, hepb⟩ := hInv
  have hjc' : j < s.bpc.length := l1 ▸ hj
  rw [pyGet_nonneg] at hcpi
  have hcpi' : s.bpc.get? j = some cpi := by
    rw [List.get?_append hjc'] at hcpi
    exact hcpi
  have hcple : cpi ≤ 1 := hjc cpi hcpi'
  obtain ⟨-, hbpc2⟩ := pySet_nonneg_some (s.bpc ++ [0]) j (cpi + 1) s'.bpc hset
  have hlenbpc : s'.bpc.length = s.bp.length + 1 := by
    rw [hbpc2, List.length_set]
    simp [l1]
  have hgetj : s'.bpc.get? j = some (cpi + 1) := by
    rw [hbpc2, List.get?_set_eq, List.get?_append hjc', hcpi']
    rfl
  have hgetnew : s'.bpc.get? s.bp.length = some 0 := by
    rw [hbpc2, List.get?_set_ne _ _ (by omega : j ≠ s.bp.length)]
    rw [show s.bp.length = s.bpc.length from l1.symm ▸ rfl]
    exact List.get?_concat_length s.bpc 0
  have hother : ∀ j' : ℕ, j' ≠ j → s'.bpc.get? j' = (s.bpc ++ [0]).get? j' := by
    intro j' hne
    rw [hbpc2, List.get?_set_ne _ _ (Ne.symm hne)]
  have hc2' : c2 = cpi + 1 := by
    rw [pyGet_nonneg, hgetj] at hc2
    exact (Option.some.inj hc2).symm
  have hbplen : s'.bp.length = s.bp.length + 1 := by
    rw [hbp]; simp
  have hbi : ((s.bp ++ [pos]).length : ℤ) - 1 = (s.bp.length : ℤ) := by
    simp
  have hcnt' : ∀ c' ∈ s'.bpc, c' ≤ 2 := by
    intro c' hm
    rw [hbpc2] at hm
    rcases List.mem_or_eq_of_mem_set hm with hm1 | rfl
    · rcases List.mem_append.mp hm1 with hm2 | hm2
      · exact hcnt c' hm2
      · simp at hm2
        omega
    · omega
  have hulen := updateEPs_lengths s.killdistance s.influence pos
    (((s.bp ++ [pos]).length : ℤ) - 1) s.ep s.epd s.epb s.epv u hu
  have hentry : ∀ (k : ℕ) (b : ℤ), s'.epb.get? k = some b → b = -1 ∨ b = -2 ∨
      ∃ (j₀ : ℕ) (c : ℤ), b = (j₀ : ℤ) ∧ s'.bpc.get? j₀ = some c ∧ c ≤ 1 := by
    intro k b hk
    have hbicase : ∀ b₀ : ℤ, b₀ = ((s.bp ++ [pos]).length : ℤ) - 1 →
        ∃ (j₀ : ℕ) (c : ℤ), b₀ = (j₀ : ℤ) ∧ s'.bpc.get? j₀ = some c ∧ c ≤ 1 := by
      intro b₀ hb₀
      exact ⟨s.bp.length, 0, by rw [hb₀, hbi], hgetnew, by norm_num⟩
    have holdcase : ∀ b₀ : ℤ, (s.epb.get? k = some b₀) → b₀ ≠ (j : ℤ) →
        b₀ = -1 ∨ b₀ = -2 ∨
        ∃ (j₀ : ℕ) (c : ℤ), b₀ = (j₀ : ℤ) ∧ s'.bpc.get? j₀ = some c ∧ c ≤ 1 := by
      intro b₀ hold hne
      rcases hepb k b₀ hold with h1 | h1 | ⟨j₀, c, hbj, hc, hcle⟩
      · left; exact h1
      · right; left; exact h1
      · right; right
        have hne0 : j₀ ≠ j := fun hc0 => hne (by rw [hbj, hc0])
        refine ⟨j₀, c, hbj, ?_, hcle⟩
        rw [hother j₀ hne0, List.get?_append (by exact (List.get?_eq_some.mp hc).1)]
        exact hc
    rcases hre with ⟨hlt, hre⟩ | ⟨hnlt, hepbu, -, -⟩
    · have hl1 : u.1.length = s.ep.length := by rw [hulen.1, l5]
      have hl2 : u.2.1.length = s.ep.length := by rw [hulen.2.1, l6]
      have hl3 : u.2.2.length = s.ep.length := by rw [hulen.2.2, l7]
      rcases reassignEPs_entry (s.bp ++ [pos]) s'.bpc s.influence (j : ℤ) s.ep u.1 u.2.1 u.2.2
          (s'.epb, s'.epv, s'.epd) hl1 hl2 hl3 hre k b hk with ⟨hkept, hnej⟩ | h1 | h1
      · rcases updateEPs_entry s.killdistance s.influence pos _ s.ep s.epd s.epb s.epv u hu
            k b hkept with h1 | h1 | h1 | h1
        · left; exact h1
        · right; left; exact h1
        · right; right; exact hbicase b h1
        · exact holdcase b h1 hnej
      · right; left; exact h1
      · right; right; exact h1
    · rw [hepbu] at hk
      rcases updateEPs_entry s.killdistance s.influence pos _ s.ep s.epd s.epb s.epv u hu
          k b hk with h1 | h1 | h1 | h1
      · left; exact h1
      · right; left; exact h1
      · right; right; exact hbicase b h1
      · by_cases hne : b = (j : ℤ)
        · right; right
          refine ⟨j, cpi + 1, hne, hgetj, ?_⟩
          rw [hc2'] at hnlt
          omega
        · exact holdcase b h1 hne
  have heplens : s'.epb.length = s'.ep.length ∧ s'.epv.length = s'.ep.length ∧
      s'.epd.length = s'.ep.length := by
    rcases hre with ⟨-, hre⟩ | ⟨-, hb1, hv1, hd1⟩
    · have hrl := reassignEPs_lengths (s.bp ++ [pos]) s'.bpc s.influence (j : ℤ)
        s.ep u.1 u.2.1 u.2.2 (s'.epb, s'.epv, s'.epd) hre
      refine ⟨?_, ?_, ?_⟩
      · rw [hep]; rw [show s'.epb = (s'.epb, s'.epv, s'.epd).1 from rfl] at *
        rw [hrl.1, hulen.1]; exact l5
      · rw [hep, hrl.2.1, hulen.2.1]; exact l6
      · rw [hep, hrl.2.2, hulen.2.2]; exact l7
    · refine ⟨?_, ?_, ?_⟩
      · rw [hep, hb1, hulen.1]; exact l5
      · rw [hep, hv1, hulen.2.1]; exact l6
      · rw [hep, hd1, hulen.2.2]; exact l7
  refine ⟨⟨by rw [hlenbpc, hbplen], by rw [hbpp, hbp]; simp [l2],
    by rw [hbpgl, hbplen, l3], by rw [hbpal, hbplen, l4],
    heplens.1, heplens.2.1, heplens.2.2, hcnt', hentry⟩, hbplen, hother⟩

/-- The commit loop preserves the store invariant when the pending parent
indices are distinct growable branch points of the starting store: each
commit bumps only its own parent, leaving every other pending parent's
count untouched. -/
lemma commitPhase_inv (generation : ℤ) :
    ∀ (cs : List (V3 × ℤ)) (s s' : SCA),
      StoreInv s →
      (cs.map Prod.snd).Nodup →
      (∀ cp ∈ cs, ∃ (j : ℕ) (c : ℤ), cp.2 = (j : ℤ) ∧ j < s.bp.length ∧
        s.bpc.get? j = some c ∧ c ≤ 1) →
      SCA.commitPhase generation s cs = some s' → StoreInv s' := by
  intro cs
  induction cs with
  | nil =>
    intro s s' hInv _ _ h
    obtain rfl := Option.some.inj h
    exact hInv
  | cons c cs ih =>
    intro s s' hInv hnd hval h
    rw [List.map_cons] at hnd
    obtain ⟨hhead, htail⟩ := List.nodup_cons.mp hnd
    rw [SCA.commitPhase] at h
    by_cases hex : s.exclude c.1
    · rw [if_pos hex] at h
      exact ih s s' hInv htail (fun cp hm => hval cp (List.mem_cons_of_mem c hm)) h
    · rw [if_neg hex] at h
      simp only [Option.bind_eq_some] at h
      obtain ⟨s1, h1, h2⟩ := h
      obtain ⟨j, cj, hcj2, hjlt, hcj, hcjle⟩ := hval c (List.mem_cons_self c cs)
      rw [hcj2] at h1
      obtain ⟨hInv1, hlen1, hother⟩ := addBranchPoint_inv s c.1 j generation s1 hInv hjlt
        (fun c0 hc0 => by
          rw [hcj] at hc0
          exact (Option.some.inj hc0) ▸ hcjle) h1
      refine ih s1 s' hInv1 htail ?_ h2
      · intro cp hm
        obtain ⟨j', cj', hcp2, hjlt', hcj', hcjle'⟩ := hval cp (List.mem_cons_of_mem c hm)
        have hne : j' ≠ j := by
          intro hcontra
          have hmem2 : cp.2 ∈ cs.map Prod.snd := List.mem_map_of_mem Prod.snd hm
          rw [hcp2, hcontra, ← hcj2] at hmem2
          exact hhead hmem2
        refine ⟨j', cj', hcp2, by omega, ?_, hcjle'⟩
        rw [hother j' hne,
          List.get?_append (show j' < s.bpc.length from (List.get?_eq_some.mp hcj').1)]
        exact hcj'

/-- The parents of the collected candidates form a sublist of the
iteration sequence — in particular, a duplicate-free sequence yields
duplicate-free parents, in the same order. -/
lemma growPhase_parents_sublist (s : SCA) :
    ∀ (order : List ℤ) (rng : Rng) (r : List (V3 × ℤ) × Rng),
      s.growPhase order rng = some r → (r.1.map Prod.snd).Sublist order := by
  intro order
  induction order with
  | nil =>
    intro rng r h
    obtain rfl := Option.some.inj h
    simp
  | cons bpi rest ih =>
    intro rng r h
    rw [SCA.growPhase] at h
    simp only [Option.bind_eq_some] at h
    obtain ⟨af, haf, h2⟩ := h
    by_cases hsup : (s.shootSupressed af rng).1
    · rw [if_pos hsup] at h2
      exact (ih _ r h2).cons bpi
    · rw [if_neg hsup] at h2
      simp only [Option.bind_eq_some] at h2
      obtain ⟨c, hc, cr, hcr, hr⟩ := h2
      obtain rfl := Option.some.inj hr
      simpa using (ih _ cr hcr).cons₂ bpi

/-- One `growBranches` generation preserves the store invariant. -/
lemma growBranches_inv (s : SCA) (rng : Rng) (generation : ℤ) (order : List ℤ)
    (s' : SCA) (rng' : Rng) (hInv : StoreInv s)
    (h : s.growBranches rng generation order = some (s', rng')) : StoreInv s' := by
  rw [SCA.growBranches] at h
  by_cases hord : IsSetOrder s.epb order
  · rw [if_pos hord] at h
    simp only [Option.bind_eq_some] at h
    obtain ⟨cr, hcr, s1, hs1, hfin⟩ := h
    have hs1' : s1 = s' := congrArg Prod.fst (Option.some.inj hfin)
    rw [hs1'] at hs1
    refine commitPhase_inv generation cr.1 s s' hInv ?_ ?_ hs1
    · exact (growPhase_parents_sublist s order rng cr hcr).nodup hord.1
    · intro cp hm
      have hmem := growPhase_parents s order rng cr hcr cp hm
      obtain ⟨hin_epb, hne1, hne2⟩ := hord.2.1 cp.2 hmem
      obtain ⟨k, hk⟩ := List.mem_iff_get?.mp hin_epb
      obtain ⟨l1, -, -, -, -, -, -, -, hepb⟩ := hInv
      rcases hepb k cp.2 hk with h1 | h1 | ⟨j, c, hbj, hc, hcle⟩
      · exact absurd h1 hne1
      · exact absurd h1 hne2
      · exact ⟨j, c, hbj, by rw [← l1]; exact (List.get?_eq_some.mp hc).1, hc, hcle⟩
  · rw [if_neg hord] at h
    exact absurd h (by simp)

/-- Apical decay preserves the store invariant (it touches no array). -/
lemma apicalDecay_inv (s : SCA) (hInv : StoreInv s) : StoreInv (SCA.apicalDecay s) := by
  unfold SCA.apicalDecay
  split
  · exact hInv
  · exact hInv

/-- The endpoint seeding loop of construction preserves the invariant. -/
lemma seedLoop_inv : ∀ (n : ℕ) (s s' : SCA), StoreInv s → seedLoop n s = some s' →
    StoreInv s' := by
  intro n
  induction n with
  | zero =>
    intro s s' hInv h
    obtain rfl := Option.some.inj h
    exact hInv
  | succ n ih =>
    intro s s' hInv h
    rw [seedLoop] at h
    simp only [Option.bind_eq_some] at h
    obtain ⟨s1, h1, h2⟩ := h
    exact ih s1 s' (addEndPoint_inv _ _ s1 (by exact hInv) h1) h2

/-- The endpoint injection loop of `iterate` preserves the invariant. -/
lemma injectLoop_inv (rate : ℝ) :
    ∀ (fuel : ℕ) (s : SCA) (rng : Rng) (t niterations : ℝ) (r : SCA × Rng × ℝ),
      StoreInv s → SCA.injectLoop rate fuel s rng t niterations = some r →
      StoreInv r.1 := by
  intro fuel
  induction fuel with
  | zero =>
    intro s rng t nit r hInv h
    rw [SCA.injectLoop] at h
    split at h
    · exact absurd h (by simp)
    · obtain rfl := Option.some.inj h
      exact hInv
  | succ fuel ih =>
    intro s rng t nit r hInv h
    rw [SCA.injectLoop] at h
    split at h
    · simp only [Option.bind_eq_some] at h
      obtain ⟨s1, h1, h2⟩ := h
      exact ih s1 _ _ _ r (addEndPoint_inv _ _ s1 (by exact hInv) h1) h2
    · obtain rfl := Option.some.inj h
      exact hInv

/-- The generation loop of `iterate` preserves the invariant. -/
lemma iterLoop_inv (rate maxtime : ℝ) (tOra : ℕ → ℝ) (ordOra : ℕ → List ℤ) (fuel : ℕ) :
    ∀ (remaining i : ℕ) (s : SCA) (rng : Rng) (t niterations : ℝ) (r : SCA × Rng),
      StoreInv s →
      SCA.iterLoop rate maxtime tOra ordOra fuel i remaining s rng t niterations = some r →
      StoreInv r.1 := by
  intro remaining
  induction remaining with
  | zero =>
    intro i s rng t nit r hInv h
    obtain rfl := Option.some.inj h
    exact hInv
  | succ remaining ih =>
    intro i s rng t nit r hInv h
    rw [SCA.iterLoop] at h
    simp only [Option.bind_eq_some] at h
    obtain ⟨sr, hsr, h2⟩ := h
    have hInv1 : StoreInv sr.1 :=
      growBranches_inv s rng (i : ℤ) (ordOra i) sr.1 sr.2 hInv (by simpa using hsr)
    by_cases htime : 0 < maxtime ∧ maxtime < tOra i
    · rw [if_pos htime] at h2
      obtain rfl := Option.some.inj h2
      exact hInv1
    · rw [if_neg htime] at h2
      by_cases hrate : 0 < rate
      · rw [if_pos hrate] at h2
        simp only [Option.bind_eq_some] at h2
        obtain ⟨srt, hinj, h3⟩ := h2
        exact ih (i + 1) _ _ _ _ r
          (apicalDecay_inv _ (injectLoop_inv rate fuel sr.1 sr.2 t (nit + 1) srt hInv1 hinj)) h3
      · rw [if_neg hrate] at h2
        exact ih (i + 1) _ _ _ _ r (apicalDecay_inv _ hInv1) h2

/-- A whole `iterate` run preserves the invariant in the final store. -/
lemma iterate_inv (s : SCA) (rng : Rng) (cnt : ℤ) (rate maxtime : ℝ)
    (tOra : ℕ → ℝ) (ordOra : ℕ → List ℤ) (fuel : ℕ)
    (r : SCA × Rng × List BPRec × List V3 × ℤ) (hInv : StoreInv s)
    (h : s.iterate rng cnt rate maxtime tOra ordOra fuel = some r) : StoreInv r.1 := by
  rw [SCA.iterate] at h
  simp only [Option.bind_eq_some] at h
  obtain ⟨sr, hloop, rec1, hmat, hfin⟩ := h
  have hr1 : r.1 = sr.1 := by
    obtain rfl := Option.some.inj hfin
    rfl
  rw [hr1]
  exact iterLoop_inv _ _ tOra ordOra fuel _ 0 s _ _ 0 sr hInv hloop

/-- Every single engine operation preserves the invariant. -/
lemma step_inv (s s' : SCA) (hInv : StoreInv s) (h : Step s s') : StoreInv s' := by
  cases h with
  | grow _ rng rng' generation order h =>
    exact growBranches_inv _ rng generation order _ rng' hInv h
  | addEP _ e h => exact addEndPoint_inv _ e _ hInv h
  | decay => exact apicalDecay_inv _ hInv
  | iter _ rng rng' cnt cnt' rate maxtime tOra ordOra fuel recs eps h =>
    exact iterate_inv _ rng cnt rate maxtime tOra ordOra fuel _ hInv h

/-- Construction with no presets establishes the invariant. -/
lemma initSCA_inv (NENDPOINTS : ℤ) (d : ℝ) (NBP : ℤ) (KILLDIST INFLUENCE : ℝ)
    (volumepoint : ℕ → V3) (TROPISM : ℝ) (exclude : V3 → Bool)
    (apicalcontrol apicalcontrolfalloff : ℝ) (apicaltiming : ℤ) (s : SCA)
    (h : initSCA NENDPOINTS d NBP KILLDIST INFLUENCE volumepoint TROPISM exclude []
      apicalcontrol apicalcontrolfalloff apicaltiming = some s) : StoreInv s := by
  rw [initSCA] at h
  simp only [Option.bind_eq_some] at h
  obtain ⟨s1, hseed, hfin⟩ := h
  have hs : s1 = s := by simpa using hfin
  rw [← hs]
  refine seedLoop_inv _ _ _ ?_ hseed
  refine ⟨rfl, rfl, rfl, rfl, rfl, rfl, rfl, ?_, ?_⟩
  · intro c hm
    have : c = 0 := by simpa using hm
    omega
  · intro k b hk
    simp at hk

/-- Every reachable store satisfies the invariant. -/
lemma reach_inv (s : SCA) (h : Reach s) : StoreInv s := by
  induction h with
  | init _ _ _ _ _ _ _ _ _ _ _ _ h => exact initSCA_inv _ _ _ _ _ _ _ _ _ _ _ _ h
  | step s1 s2 h1 h2 ih => exact step_inv s1 s2 ih h2

/-- C1: in every store reachable by a run of the engine — construction
with no preset starting points followed by any sequence of `growBranches`
generations, endpoint additions, apical decay steps and `iterate` runs —
every child count entry (`bpc`) is at most 2. -/
theorem c1_child_count_at_most_two (s : SCA) (h : Reach s) : ∀ c ∈ s.bpc, c ≤ 2 :=
  (reach_inv s h).2.2.2.2.2.2.2.1

/-- Witness for C1: the engine constructed with no endpoints and no
presets is `baseS`, whose only child count entry, 0, is at most 2. -/
theorem c1_child_count_at_most_two_witness : (0 : ℤ) ≤ 2 := by
  have hinit : initSCA 0 1 0 0 5 (fun _ => (⟨0, 0, 0⟩ : V3)) 0 (fun _ => false) [] 0 1 0 =
      some baseS := by
    norm_num [initSCA, seedLoop, baseS]
  exact c1_child_count_at_most_two baseS
    (Reach.init 0 1 0 0 5 (fun _ => (⟨0, 0, 0⟩ : V3)) 0 (fun _ => false) 0 1 0 baseS hinit)
    0 (by simp [baseS])

/-- With no wall-clock budget the generation loop never consults the
clock, so its result does not depend on the elapsed-time readings. -/
lemma iterLoop_time_free (rate maxtime : ℝ) (t1 t2 : ℕ → ℝ) (ordOra : ℕ → List ℤ)
    (fuel : ℕ) (hmt : maxtime ≤ 0) :
    ∀ (remaining i : ℕ) (s : SCA) (rng : Rng) (t niterations : ℝ),
      SCA.iterLoop rate maxtime t1 ordOra fuel i remaining s rng t niterations =
      SCA.iterLoop rate maxtime t2 ordOra fuel i remaining s rng t niterations := by
  intro remaining
  induction remaining with
  | zero => intro i s rng t nit; rfl
  | succ remaining ih =>
    intro i s rng t nit
    rw [SCA.iterLoop, SCA.iterLoop]
    apply congrArg
    funext sr
    have hc1 : ¬ (0 < maxtime ∧ maxtime < t1 i) := fun hc => absurd hc.1 (not_lt.mpr hmt)
    have hc2 : ¬ (0 < maxtime ∧ maxtime < t2 i) := fun hc => absurd hc.1 (not_lt.mpr hmt)
    rw [if_neg hc1, if_neg hc2]
    by_cases hrate : 0 < rate
    · rw [if_pos hrate, if_pos hrate]
      dsimp only
      apply congrArg
      funext srt
      exact ih (i + 1) _ _ _ _
    · rw [if_neg hrate, if_neg hrate]
      exact ih (i + 1) _ _ _ _

/-- C9 amended: with the per-run global `Branchpoint.count` equal and no
positive wall-clock budget, two runs of `iterate` from the same
constructed store, random stream, configuration and set-iteration
sequences produce identical results however the wall clock behaves: the
elapsed-time readings are never consulted.  (With a positive `maxtime`, or
across two runs in one process, determinism fails; see the
counterexample.) -/
theorem c9_deterministic_without_time_budget (s : SCA) (rng : Rng) (cnt : ℤ)
    (rate maxtime : ℝ) (t1 t2 : ℕ → ℝ) (ordOra : ℕ → List ℤ) (fuel : ℕ)
    (hmt : maxtime ≤ 0) :
    s.iterate rng cnt rate maxtime t1 ordOra fuel =
    s.iterate rng cnt rate maxtime t2 ordOra fuel := by
  rw [SCA.iterate, SCA.iterate]
  rw [iterLoop_time_free _ maxtime t1 t2 ordOra fuel hmt]

/-- Witness for C9 amended: a run with a zero time budget gives the same
result under two different wall clocks. -/
theorem c9_deterministic_without_time_budget_witness :
    SCA.iterate baseS rng0 0 0 0 (fun _ => 0) (fun _ => []) 0 =
    SCA.iterate baseS rng0 0 0 0 (fun _ => 1000) (fun _ => []) 0 :=
  c9_deterministic_without_time_budget baseS rng0 0 0 0 (fun _ => 0) (fun _ => 1000)
    (fun _ => []) 0 le_rfl

/-- C9 counterexample: two complete runs with identical seed and
configuration (zero endpoints, zero generations) inside one process.  The
process-global `Branchpoint.count` persists across runs, so the second
run's only record carries index 2 where the first carried 1: the record
sequences are not identical. -/
theorem c9_counterexample :
    initSCA 0 1 0 0 5 (fun _ => (⟨0, 0, 0⟩ : V3)) 0 (fun _ => false) [] 0 1 0 = some baseS ∧
    SCA.iterate baseS rng0 0 0 0 (fun _ => 0) (fun _ => []) 0 =
      some (baseS, rng0, [bprec1], [], 1) ∧
    SCA.iterate baseS rng0 1 0 0 (fun _ => 0) (fun _ => []) 0 =
      some (baseS, rng0, [bprec2], [], 2) ∧
    [bprec1] ≠ [bprec2] := by
  refine ⟨by norm_num [initSCA, seedLoop, baseS], ?_, ?_, ?_⟩
  · norm_num [SCA.iterate, SCA.iterLoop, SCA.materialize, matLoop, connPhase,
      connPhaseAux, connWalk, pyGet, baseS, bprec1]
  · norm_num [SCA.iterate, SCA.iterLoop, SCA.materialize, matLoop, connPhase,
      connPhaseAux, connWalk, pyGet, baseS, bprec2]
  · intro h
    simp [bprec1, bprec2] at h

/-- A square root is never below `-1`; recorded distances of `-1` are
therefore never beaten, which keeps the concrete runs below update-free. -/
lemma sqrt_not_lt_neg_one (x : ℝ) : ¬ Real.sqrt x < -1 :=
  not_lt.mpr (le_trans (by norm_num) (Real.sqrt_nonneg x))

/-- Every candidate collected by the growth phase was computed by
`growCandidate` against the phase's starting store. -/
lemma growPhase_cands (s : SCA) :
    ∀ (order : List ℤ) (rng : Rng) (r : List (V3 × ℤ) × Rng),
      s.growPhase order rng = some r → ∀ cp ∈ r.1, s.growCandidate cp.2 = some cp.1 := by
  intro order
  induction order with
  | nil =>
    intro rng r h cp hm
    obtain rfl := Option.some.inj h
    simp at hm
  | cons bpi rest ih =>
    intro rng r h cp hm
    rw [SCA.growPhase] at h
    simp only [Option.bind_eq_some] at h
    obtain ⟨af, haf, h2⟩ := h
    by_cases hsup : (s.shootSupressed af rng).1
    · rw [if_pos hsup] at h2
      exact ih _ r h2 cp hm
    · rw [if_neg hsup] at h2
      simp only [Option.bind_eq_some] at h2
      obtain ⟨c, hc, cr, hcr, hr⟩ := h2
      obtain rfl := Option.some.inj hr
      rcases List.mem_cons.mp hm with heq | hm'
      · rw [heq]
        exact hc
      · exact ih _ cr hcr cp hm'

/-- Committing the parent-8 candidate on `sC2`. -/
lemma sC2_commit1 : SCA.addBranchPoint sC2 ⟨1, 0, 0⟩ 8 0 = some sC2mid := by
  rw [SCA.addBranchPoint]
  simp +decide [stampWalk, updateEPs, epUpdate, pyGet, pySet, sC2, sC2mid, baseS,
    V3.sub, V3.dot, sqrt_not_lt_neg_one]

/-- Committing the parent-0 candidate on the intermediate store. -/
lemma sC2_commit2 : SCA.addBranchPoint sC2mid ⟨1, 0, 0⟩ 0 0 = some sC2' := by
  rw [SCA.addBranchPoint]
  simp +decide [stampWalk, updateEPs, epUpdate, pyGet, pySet, sC2mid, sC2', baseS,
    V3.sub, V3.dot, sqrt_not_lt_neg_one]

/-- The growth phase of `sC2` over the iteration sequence `[8, 0]`
collects one candidate per parent, in that order, consuming no draws. -/
lemma sC2_phase : SCA.growPhase sC2 [8, 0] rng0 =
    some ([(⟨1, 0, 0⟩, 8), (⟨1, 0, 0⟩, 0)], rng0) := by
  rw [SCA.growPhase]
  simp +decide [SCA.growPhase, SCA.growCandidate, SCA.shootSupressed, direction, pyGet,
    sC2, baseS, V3.add, V3.dot, Real.sqrt_one, List.zip_cons_cons, List.filterMap_cons]

/-- The iteration sequence `[8, 0]` is a faithful enumeration of the
non-sentinel associations of `sC2`. -/
lemma sC2_order_ok : IsSetOrder sC2.epb [8, 0] := by
  have h : sC2.epb = [8, 0] := rfl
  unfold IsSetOrder
  rw [h]
  exact ⟨by decide, by decide, by decide⟩

/-- The full `growBranches` call on `sC2` with the realized CPython
iteration sequence `[8, 0]`. -/
lemma sC2_growBranches : SCA.growBranches sC2 rng0 0 [8, 0] = some (sC2', rng0) := by
  rw [SCA.growBranches, if_pos sC2_order_ok, sC2_phase]
  simp only [Option.some_bind]
  rw [SCA.commitPhase, if_neg (by simp [sC2, baseS]), sC2_commit1]
  simp only [Option.some_bind]
  rw [SCA.commitPhase, if_neg (by simp [sC2mid, baseS]), sC2_commit2]
  simp only [Option.some_bind]
  rfl

/-- C2 amended: every successful `growBranches(generation)` call factors
exactly as claimed for the snapshot half — the iteration sequence is a
faithful enumeration of the associated parent set, every surviving
candidate was computed by `growCandidate` against the store as it was at
the start of the call (no candidate sees another candidate's commit), and
the candidates are then committed by the sequential `commitPhase` over
`addBranchPoint` — but the commit order is the set-iteration sequence
(the candidate parents form a sublist of `order`), which CPython does not
keep ascending; see the counterexample. -/
theorem c2_snapshot_and_commit_order (s : SCA) (rng : Rng) (generation : ℤ)
    (order : List ℤ) (s' : SCA) (rng' : Rng)
    (h : s.growBranches rng generation order = some (s', rng')) :
    IsSetOrder s.epb order ∧
    ∃ cs : List (V3 × ℤ),
      s.growPhase order rng = some (cs, rng') ∧
      (∀ cp ∈ cs, s.growCandidate cp.2 = some cp.1) ∧
      (cs.map Prod.snd).Sublist order ∧
      SCA.commitPhase generation s cs = some s' := by
  rw [SCA.growBranches] at h
  by_cases hord : IsSetOrder s.epb order
  · rw [if_pos hord] at h
    simp only [Option.bind_eq_some] at h
    obtain ⟨cr, hcr, s1, hs1, hfin⟩ := h
    have h1 : s1 = s' := congrArg Prod.fst (Option.some.inj hfin)
    have h2 : cr.2 = rng' := congrArg Prod.snd (Option.some.inj hfin)
    refine ⟨hord, cr.1, ?_, growPhase_cands s order rng cr hcr,
      growPhase_parents_sublist s order rng cr hcr, by rw [← h1]; exact hs1⟩
    rw [← h2]
    exact hcr
  · rw [if_neg hord] at h
    exact absurd h (by simp)

/-- Witness for C2 amended: the factorization applied to the concrete
two-candidate generation on `sC2`. -/
theorem c2_snapshot_and_commit_order_witness :
    IsSetOrder sC2.epb [8, 0] ∧
    ∃ cs : List (V3 × ℤ),
      SCA.growPhase sC2 [8, 0] rng0 = some (cs, rng0) ∧
      (∀ cp ∈ cs, SCA.growCandidate sC2 cp.2 = some cp.1) ∧
      (cs.map Prod.snd).Sublist [8, 0] ∧
      SCA.commitPhase 0 sC2 cs = some sC2' :=
  c2_snapshot_and_commit_order sC2 rng0 0 [8, 0] sC2' rng0 sC2_growBranches

/-- C2 counterexample: a legitimate `growBranches` call — the iteration
sequence `[8, 0]` is exactly what CPython's `set([8, 0])` yields, since 8
occupies slot `8 & 7 = 0` of the hash table and 0 then probes to slot 1 —
commits its two candidates with parent 8 first and parent 0 second, as the
appended parent entries record: the claimed ascending parent-index commit
order does not hold. -/
theorem c2_counterexample :
    IsSetOrder sC2.epb [8, 0] ∧
    SCA.growBranches sC2 rng0 0 [8, 0] = some (sC2', rng0) ∧
    sC2'.bpp.drop 9 = [some 8, some 0] ∧
    ¬ List.Sorted (· ≤ ·) [(8 : ℤ), 0] := by
  refine ⟨sC2_order_ok, sC2_growBranches, rfl, ?_⟩
  decide
